import Mathlib

/-!
Verification development for the 3D model-optimization core: the LOD
(level-of-detail) quality manager (`LODManager`), the LRU content cache
(`ModelCache`) and the performance observer (`PerformanceMonitor`).

Numbers: every size, counter and timestamp handled by the source is an
integer (byte counts, `Math.round`ed estimates, `Date.now()` stamps), so
they are embedded as `ℤ`/`ℕ`; where the source compares against a
fractional constant (`maxSize * 0.5`, `length * 0.25`,
`maxSize * 0.8`) the comparison is rendered as the exactly equivalent
integer-scaled comparison, noted at each use site.  Distance thresholds
are arbitrary reals in the source and are embedded as `ℚ`.
-/

/-- The three LOD quality tiers (`qualityLevels: ['low','medium','high']`). -/
inductive Quality where
  | low
  | medium
  | high
deriving DecidableEq

/-- The string tag of a quality tier, as used in cache keys and entries. -/
def qualityString : Quality → String
  | .low => "low"
  | .medium => "medium"
  | .high => "high"

/-- A loaded model instance.  The Three.js scene graph is opaque to the
cache; only its identity and the byte size computed by
`estimateModelSize` (a nonnegative `Math.round`ed integer) are
observable, so the instance is embedded as an id together with that
estimated size. -/
structure Model where
  id : ℕ
  estSize : ℕ
deriving DecidableEq

/-- Association-list rendering of a JavaScript `Map`: `Map.get`. -/
def mapLookup {β : Type} : List (String × β) → String → Option β
  | [], _ => none
  | (k', v) :: rest, k => if k' = k then some v else mapLookup rest k

/-- `Map.set`: replaces in place if the key is present (JS `Map` keeps the
original insertion position), otherwise appends. -/
def mapSet {β : Type} : List (String × β) → String → β → List (String × β)
  | [], k, v => [(k, v)]
  | (k', v') :: rest, k, v =>
    if k' = k then (k, v) :: rest else (k', v') :: mapSet rest k v

/-- `Map.delete`: removes the binding of the key, if present. -/
def mapDelete {β : Type} : List (String × β) → String → List (String × β)
  | [], _ => []
  | (k', v') :: rest, k => if k' = k then rest else (k', v') :: mapDelete rest k

/-- The keys of an association list, in insertion order. -/
def mapKeys {β : Type} (m : List (String × β)) : List String := m.map Prod.fst

namespace ModelCache

/-- A cache entry (`ModelCache.set` builds these).  The `metadata` and
`loadTime` bookkeeping fields are not observed by any claim and are
projected away. -/
structure CacheEntry where
  model : Model
  size : ℤ
  lastAccess : ℤ
  accessCount : ℕ
  quality : String
deriving DecidableEq

/-- Events published by the cache (`eviction`, `load`, `error`).  The
eviction reason is the string the source passes (`"lru"` / `"manual"`). -/
inductive CacheEvent where
  | evictionEv (key : String) (reason : String)
  | loadEv (key : String)
  | errorEv (key : String)
deriving DecidableEq

/-- The mutable state of a `ModelCache` instance.  The source keeps two
maps `cache` and `usage` that always hold the **same** entry objects
under the same keys (both are written by `set` and erased by
`delete`/`evictLeastUsed`/`clear` together), so a single association
list represents both; `usage` iteration order equals `cache` insertion
order.  `config.memoryThreshold` stays at its constructor default `0.8`
(the repository never overrides it) and appears as the scaled comparison
in `performMaintenance`. -/
structure CacheState where
  maxSize : ℤ
  maxEntries : ℕ
  cache : List (String × CacheEntry)
  accessOrder : List String
  currentSize : ℤ
  totalRequests : ℕ
  cacheHits : ℕ
  cacheMisses : ℕ
  events : List CacheEvent
deriving DecidableEq

/-- The constructor's initial state: empty storage, zeroed metrics. -/
def initCache (maxSize : ℤ) (maxEntries : ℕ) : CacheState :=
  { maxSize := maxSize
    maxEntries := maxEntries
    cache := []
    accessOrder := []
    currentSize := 0
    totalRequests := 0
    cacheHits := 0
    cacheMisses := 0
    events := [] }

/-- The constructor defaults (`maxSize: 100MB`, `maxEntries: 50`). -/
def defaultCache : CacheState := initCache (100 * 1024 * 1024) 50

/-- `estimateModelSize`: the source traverses the Three.js hierarchy and
returns a `Math.round`ed nonnegative byte estimate; that resulting
integer is carried on the instance itself here. -/
def estimateModelSize (model : Model) : ℤ := model.estSize

/-- `updateAccessOrder`: remove the key from its current position and
append it at the end (most recently used). -/
def updateAccessOrder (s : CacheState) (key : String) : CacheState :=
  { s with accessOrder := (s.accessOrder.erase key) ++ [key] }

/-- `updateAccess`: bump the entry's `lastAccess`/`accessCount` (the
entry object is shared between `cache` and `usage`), then re-stamp the
access order. -/
def updateAccess (s : CacheState) (key : String) (now : ℤ) : CacheState :=
  let s' :=
    match mapLookup s.cache key with
    | some e =>
      { s with cache :=
          mapSet s.cache key { e with lastAccess := now, accessCount := e.accessCount + 1 } }
    | none => s
  updateAccessOrder s' key

/-- `evictLeastUsed`: evict the head of the access order (least recently
used), emitting an `eviction` event with reason `"lru"`.  If the head
key has no entry (`if (entry)` guard in the source) nothing happens. -/
def evictLeastUsed (s : CacheState) : CacheState :=
  match s.accessOrder with
  | [] => s
  | keyToEvict :: _ =>
    match mapLookup s.cache keyToEvict with
    | none => s
    | some entry =>
      { s with
        events := s.events ++ [CacheEvent.evictionEv keyToEvict "lru"]
        cache := mapDelete s.cache keyToEvict
        currentSize := s.currentSize - entry.size
        accessOrder := s.accessOrder.erase keyToEvict }

/-- `clear`: drop every entry and reset the size total (hit/miss
counters are kept by the source). -/
def clear (s : CacheState) : CacheState :=
  { s with cache := [], accessOrder := [], currentSize := 0 }

/-- The body of `ensureSpace`'s `while` loop, with fuel bounding the
iteration count.  Each pass either exits (budget satisfied), clears the
whole cache and breaks (access order empty while over budget), or evicts
the LRU head; every terminating execution of the source loop finishes
within `accessOrder.length + 1` passes, the fuel `ensureSpace` supplies. -/
def ensureSpaceGo : ℕ → CacheState → ℤ → CacheState
  | 0, s, _ => s
  | fuel + 1, s, requiredSize =>
    if s.currentSize + requiredSize > s.maxSize ∨ s.maxEntries ≤ s.cache.length then
      if s.accessOrder.isEmpty then clear s
      else ensureSpaceGo fuel (evictLeastUsed s) requiredSize
    else s

/-- `ensureSpace(requiredSize)`: evict LRU entries until
`currentSize + requiredSize <= maxSize` and `cache.size < maxEntries`. -/
def ensureSpace (s : CacheState) (requiredSize : ℤ) : CacheState :=
  ensureSpaceGo (s.accessOrder.length + 1) s requiredSize

/-- `set(key, model, metadata)`: reject when the estimated size exceeds
half the capacity (`size > this.config.maxSize * 0.5`, rendered exactly
as `2 * size > maxSize` over the integers), otherwise make room, insert
the entry into both maps, add its size to the running total and mark the
key most recently used. -/
def set (s : CacheState) (key : String) (model : Model) (quality : String)
    (now : ℤ) : CacheState :=
  let size := estimateModelSize model
  if 2 * size > s.maxSize then s
  else
    let s1 := ensureSpace s size
    let entry : CacheEntry :=
      { model := model, size := size, lastAccess := now, accessCount := 1
        quality := quality }
    let s2 := { s1 with cache := mapSet s1.cache key entry
                        currentSize := s1.currentSize + size }
    updateAccessOrder s2 key

/-- `delete(key)`: manual removal; returns whether a binding existed and
emits an `eviction` event with reason `"manual"`. -/
def delete (s : CacheState) (key : String) : CacheState × Bool :=
  match mapLookup s.cache key with
  | none => (s, false)
  | some entry =>
    ({ s with
        cache := mapDelete s.cache key
        currentSize := s.currentSize - entry.size
        accessOrder := s.accessOrder.erase key
        events := s.events ++ [CacheEvent.evictionEv key "manual"] }, true)

/-- `get(key, loader, options)` run to completion with no interleaving:
on a hit, bump counters and access statistics and return the stored
instance; on a miss, the loader's outcome (`some` instance or `none` for
a rejected load) is stored via `set` and a `load` event is emitted, or
the error is propagated after an `error` event. -/
def get (s : CacheState) (key : String) (outcome : Option Model)
    (quality : String) (now : ℤ) : CacheState × Option Model :=
  let s0 := { s with totalRequests := s.totalRequests + 1 }
  match mapLookup s0.cache key with
  | some entry =>
    let s1 := { s0 with cacheHits := s0.cacheHits + 1 }
    (updateAccess s1 key now, some entry.model)
  | none =>
    let s1 := { s0 with cacheMisses := s0.cacheMisses + 1 }
    match outcome with
    | some m =>
      let s2 := set s1 key m quality now
      ({ s2 with events := s2.events ++ [CacheEvent.loadEv key] }, some m)
    | none => ({ s1 with events := s1.events ++ [CacheEvent.errorEv key] }, none)

/-- `performMaintenance`: delete entries older than five minutes that
were accessed exactly once, then, if the cache is past the memory
threshold (`currentSize > maxSize * 0.8`, rendered exactly as
`5 * currentSize > 4 * maxSize`), evict one more LRU entry. -/
def performMaintenance (s : CacheState) (now : ℤ) : CacheState :=
  let maxAge : ℤ := 5 * 60 * 1000
  let keysToRemove :=
    (s.cache.filter fun kv => now - kv.2.lastAccess > maxAge ∧ kv.2.accessCount = 1).map Prod.fst
  let s1 := keysToRemove.foldl (fun acc k => (delete acc k).1) s
  if 5 * s1.currentSize > 4 * s1.maxSize then evictLeastUsed s1 else s1

/-- Stable insertion into a list kept ascending by `accessCount`; equal
counts keep their existing relative order, matching the stable
JavaScript `sort((a, b) => a.accessCount - b.accessCount)`. -/
def insertByCount (x : String × CacheEntry) :
    List (String × CacheEntry) → List (String × CacheEntry)
  | [] => [x]
  | y :: ys =>
    if x.2.accessCount < y.2.accessCount then x :: y :: ys
    else y :: insertByCount x ys

/-- The `usage` entries stably sorted ascending by access count. -/
def sortByAccessCount (l : List (String × CacheEntry)) :
    List (String × CacheEntry) :=
  l.foldl (fun acc x => insertByCount x acc) []

/-- `getLeastUsedEntries(count)`: the `count` entries of least access
count (the source maps them to display records keyed by `key`; the
key/entry pairs are returned here). -/
def getLeastUsedEntries (s : CacheState) (count : ℕ) :
    List (String × CacheEntry) :=
  (sortByAccessCount s.cache).take count

/-- The synchronous prefix of `get`, up to the `await loader()`
suspension point: count the request, and either complete a hit, or
register the miss — at which point the loader is invoked and the call
suspends with the load in flight. -/
def getPhase1 (s : CacheState) (key : String) (now : ℤ) :
    CacheState × Option Model :=
  let s0 := { s with totalRequests := s.totalRequests + 1 }
  match mapLookup s0.cache key with
  | some entry =>
    let s1 := { s0 with cacheHits := s0.cacheHits + 1 }
    (updateAccess s1 key now, some entry.model)
  | none => ({ s0 with cacheMisses := s0.cacheMisses + 1 }, none)

/-- The continuation of `get` after its awaited loader resolves
successfully: store the result via `set`, emit the `load` event and
return the loaded instance to the caller. -/
def getPhase2 (s : CacheState) (key : String) (model : Model)
    (quality : String) (now : ℤ) : CacheState × Model :=
  let s1 := set s key model quality now
  ({ s1 with events := s1.events ++ [CacheEvent.loadEv key] }, model)

/-- Two `get` calls for the same key under the schedule of the claim:
the second call is issued while the first call's load is still in
flight (its synchronous prefix runs before the first loader resolves),
then the two loads resolve in order with instances `m1` and `m2`.
Returns the final state, the number of loader invocations, and the two
callers' results. -/
def concurrentGetPair (s : CacheState) (key : String) (m1 m2 : Model)
    (quality : String) : CacheState × ℕ × Option Model × Option Model :=
  match getPhase1 s key 0 with
  | (s1, some v1) =>
    -- first call hits: no load is in flight, outside the claim's premise
    match getPhase1 s1 key 0 with
    | (s2, r2) => (s2, 0, some v1, r2)
  | (s1, none) =>
    -- first call misses: its loader is invoked and the call suspends
    match getPhase1 s1 key 0 with
    | (s2, some v2) =>
      let (s3, a1) := getPhase2 s2 key m1 quality 0
      (s3, 1, some a1, some v2)
    | (s2, none) =>
      -- second call also misses: a second loader invocation is issued
      let (s3, a1) := getPhase2 s2 key m1 quality 0
      let (s4, a2) := getPhase2 s3 key m2 quality 0
      (s4, 2, some a1, some a2)

/-- The sum of the live entries' recorded sizes. -/
def liveSize (s : CacheState) : ℤ := (s.cache.map fun kv => kv.2.size).sum

end ModelCache

namespace LODManager

/-- Distance thresholds `{near, medium, far}` (metres). -/
structure LODDistances where
  near : ℚ
  medium : ℚ
  far : ℚ
deriving DecidableEq

/-- `ModelPaths`: source locator per quality tier; a tier may be absent. -/
structure ModelPaths where
  high : Option String
  medium : Option String
  low : Option String
deriving DecidableEq

/-- The locator of a given tier. -/
def ModelPaths.get (p : ModelPaths) : Quality → Option String
  | .high => p.high
  | .medium => p.medium
  | .low => p.low

/-- The per-asset record built by `registerModel` and mutated on quality
changes and unloads.  `element` is the opaque handle to the externally
owned display node; the manager never reassigns it (all
`removeObject3D`/`setAttribute` calls mutate the external node itself). -/
structure ModelConfig where
  entityId : String
  paths : ModelPaths
  lodDistances : LODDistances
  currentQuality : Option Quality
  isLoaded : Bool
  isVisible : Bool
  lastUpdate : ℤ
  memoryUsage : ℤ
  priority : ℕ
  preload : Bool
  element : Option String
deriving DecidableEq

/-- The options bag accepted by `registerModel`. -/
structure RegisterOptions where
  lodDistances : Option LODDistances
  priority : Option ℕ
  preload : Option Bool
  element : Option String
deriving DecidableEq

/-- Events published by the manager that the claims observe. -/
inductive LODEvent where
  | qualityChange (entityId : String) (previousQuality : Option Quality)
      (newQuality : Quality)
  | modelLoad (entityId : String)
deriving DecidableEq

/-- The manager state: LOD configuration distances, the owned cache, the
registry of managed assets, the statistics counters the claims observe,
the published events, and a record of every loader invocation the
manager caused (observable in the source through the loader closures it
passes to the cache). -/
structure LODState where
  distances : LODDistances
  modelCache : ModelCache.CacheState
  activeModels : List (String × ModelConfig)
  modelsRegistered : ℕ
  qualityChanges : ℕ
  events : List LODEvent
  loaderCalls : List (String × Quality)
deriving DecidableEq

/-- Constructor state: default distances `{near: 3, medium: 8, far: 15}`,
a fresh cache with the default budgets, empty registry. -/
def initLOD : LODState :=
  { distances := ⟨3, 8, 15⟩
    modelCache := ModelCache.defaultCache
    activeModels := []
    modelsRegistered := 0
    qualityChanges := 0
    events := []
    loaderCalls := [] }

/-- `determineQuality(distance, lodDistances)`: the distance-to-quality
decision rule. -/
def determineQuality (distance : ℚ) (lodDistances : LODDistances) : Quality :=
  if distance ≤ lodDistances.near then .high
  else if distance ≤ lodDistances.medium then .medium
  else .low

/-- The composite cache key `` `${entityId}_${quality}` ``. -/
def cacheKey (entityId : String) (q : Quality) : String :=
  entityId ++ "_" ++ qualityString q

/-- `preloadModel(entityId, quality)`: look up the asset and the tier's
locator (the source throws when either is missing, modelled as a `none`
result with the state untouched), then request the tier from the cache.
`ω` gives each locator's loader outcome (`none` = the GLTF load fails).
A loader invocation is recorded exactly when the key missed (only then
does `ModelCache.get` call the loader). -/
def preloadModel (ω : String → Option Model) (st : LODState)
    (entityId : String) (q : Quality) (now : ℤ) : LODState × Option Model :=
  match mapLookup st.activeModels entityId with
  | none => (st, none)
  | some cfg =>
    match cfg.paths.get q with
    | none => (st, none)
    | some path =>
      let key := cacheKey entityId q
      let wasMiss := (mapLookup st.modelCache.cache key).isNone
      let (c', res) := ModelCache.get st.modelCache key (ω path) (qualityString q) now
      ({ st with
          modelCache := c'
          loaderCalls :=
            if wasMiss then st.loaderCalls ++ [(entityId, q)] else st.loaderCalls },
       res)

/-- The rank used to justify the High→Medium→Low fallback recursion. -/
def qualityRank : Quality → ℕ
  | .low => 0
  | .medium => 1
  | .high => 2

/-- `changeModelQuality(entityId, targetQuality)`: return silently when
the asset is unregistered or has no locator for the target tier;
otherwise load the tier through the cache, and on success apply the
instance to the display node (external), record the new quality, bump
the quality-change counter and emit `qualityChange`.  On a load failure
fall back one tier (`high → medium → low`); a failure at `low` is
terminal. -/
def changeModelQuality (ω : String → Option Model) (st : LODState)
    (entityId : String) (targetQuality : Quality) (now : ℤ) : LODState :=
  match mapLookup st.activeModels entityId with
  | none => st
  | some cfg =>
    match cfg.paths.get targetQuality with
    | none => st
    | some _path =>
      let r := preloadModel ω st entityId targetQuality now
      match r.2 with
      | some _model =>
        let cfg' := { cfg with currentQuality := some targetQuality, isLoaded := true }
        { r.1 with
            activeModels := mapSet r.1.activeModels entityId cfg'
            qualityChanges := r.1.qualityChanges + 1
            events := r.1.events ++
              [LODEvent.qualityChange entityId cfg.currentQuality targetQuality] }
      | none =>
        match targetQuality with
        | .high => changeModelQuality ω r.1 entityId .medium now
        | .medium => changeModelQuality ω r.1 entityId .low now
        | .low => r.1
termination_by qualityRank targetQuality
decreasing_by
  · simp [qualityRank]
  · simp [qualityRank]

/-- The rendering of `options.priority || 5`: JavaScript `||` falls back
to the default on `undefined` and on the falsy value `0`. -/
def jsOrDefault (x : Option ℕ) (d : ℕ) : ℕ :=
  match x with
  | some n => if n = 0 then d else n
  | none => d

/-- `registerModel(entityId, modelPaths, options)`: build the managed
asset record (thresholds and priority supplied or defaulted,
`currentQuality: null`, `isLoaded: false`, `preload` unless explicitly
`false`), store it in the registry, then — when preloading is on and a
low-quality locator exists — request the low tier from the cache (a
failure there is caught and logged), and finally publish `modelLoad`. -/
def registerModel (ω : String → Option Model) (st : LODState)
    (entityId : String) (modelPaths : ModelPaths) (options : RegisterOptions)
    (now : ℤ) : LODState :=
  let cfg : ModelConfig :=
    { entityId := entityId
      paths := modelPaths
      lodDistances := options.lodDistances.getD st.distances
      currentQuality := none
      isLoaded := false
      isVisible := false
      lastUpdate := 0
      memoryUsage := 0
      priority := jsOrDefault options.priority 5
      preload := options.preload.getD true
      element := options.element }
  let st1 := { st with
      activeModels := mapSet st.activeModels entityId cfg
      modelsRegistered := st.modelsRegistered + 1 }
  let st2 :=
    if cfg.preload ∧ modelPaths.low.isSome
    then (preloadModel ω st1 entityId .low now).1
    else st1
  { st2 with events := st2.events ++ [LODEvent.modelLoad entityId] }

/-- `unloadModel(entityId)`: no-op for an unknown asset; otherwise
detach the display content from the externally owned node (outside this
state) and mark the record unloaded with its quality unset. -/
def unloadModel (st : LODState) (entityId : String) : LODState :=
  match mapLookup st.activeModels entityId with
  | none => st
  | some cfg =>
    let cfg' := { cfg with isLoaded := false, currentQuality := none }
    { st with activeModels := mapSet st.activeModels entityId cfg' }

/-- `performMemoryCleanup`: fetch `getStats().leastUsed` (the five
entries of least access count), and delete the first
`Math.ceil(leastUsed.length * 0.25)` of them — over naturals that ceil
is exactly `(length + 3) / 4`. -/
def performMemoryCleanup (c : ModelCache.CacheState) : ModelCache.CacheState :=
  let leastUsed := ModelCache.getLeastUsedEntries c 5
  let itemsToRemove : ℕ := (leastUsed.length + 3) / 4
  (leastUsed.take itemsToRemove).foldl
    (fun acc kv => (ModelCache.delete acc kv.1).1) c

/-- The memory-pressure branch of `optimizeForPerformance`: when the
observed memory percentage exceeds 80, run the memory cleanup. -/
def optimizationMemoryStep (memoryPercentage : ℤ)
    (c : ModelCache.CacheState) : ModelCache.CacheState :=
  if memoryPercentage > 80 then performMemoryCleanup c else c

end LODManager

namespace PerformanceMonitor

/-- The nested `currentMetrics.memoryUsage` record (all three fields are
integers in the source: byte counts and a `Math.round`ed percentage). -/
structure MemoryUsage where
  used : ℤ
  total : ℤ
  percentage : ℤ
deriving DecidableEq

/-- The `currentMetrics` object.  Scalar fields are held by value; the
`memoryUsage` field of the JavaScript object is a *reference* to a
`MemoryUsage` record, embedded as an address into `MonitorState.memStore`. -/
structure MetricsObj where
  fps : ℤ
  memoryUsage : ℕ
  renderTime : ℤ
  loadTime : ℤ
  activeModels : ℕ
  cacheHitRate : ℤ
deriving DecidableEq

/-- The observer's state: a heap of `MemoryUsage` records addressed by
reference, and the observer-internal `currentMetrics` object. -/
structure MonitorState where
  memStore : ℕ → MemoryUsage
  currentMetrics : MetricsObj

/-- `getCurrentMetrics()`: `return { ...this.currentMetrics }` — a
shallow spread that copies each field value; for the object-valued
`memoryUsage` field the copied value is the reference itself. -/
def getCurrentMetrics (s : MonitorState) : MetricsObj :=
  { fps := s.currentMetrics.fps
    memoryUsage := s.currentMetrics.memoryUsage
    renderTime := s.currentMetrics.renderTime
    loadTime := s.currentMetrics.loadTime
    activeModels := s.currentMetrics.activeModels
    cacheHitRate := s.currentMetrics.cacheHitRate }

/-- A caller mutating the snapshot it was handed:
`snapshot.memoryUsage.percentage = v` writes through the reference held
in the snapshot's `memoryUsage` field. -/
def writeSnapshotPercentage (s : MonitorState) (snapshot : MetricsObj)
    (v : ℤ) : MonitorState :=
  { s with memStore := fun r =>
      if r = snapshot.memoryUsage then { s.memStore r with percentage := v }
      else s.memStore r }

/-- The observer's own view of its current memory percentage, read
through its internal `currentMetrics`. -/
def observerMemoryPercentage (s : MonitorState) : ℤ :=
  (s.memStore s.currentMetrics.memoryUsage).percentage

end PerformanceMonitor

namespace ModelCache

/-- The public mutating operations of the cache, as run sequentially by
the single-threaded scheduler: a completed `get` (with its loader's
outcome), a direct `set`, a manual `delete`, an LRU eviction, `clear`,
and a maintenance pass. -/
inductive CacheOp where
  | getOp (key : String) (outcome : Option Model) (quality : String) (now : ℤ)
  | setOp (key : String) (model : Model) (quality : String) (now : ℤ)
  | deleteOp (key : String)
  | evictOp
  | clearOp
  | maintainOp (now : ℤ)
deriving DecidableEq

/-- Run one cache operation. -/
def applyOp (s : CacheState) : CacheOp → CacheState
  | .getOp k o q n => (get s k o q n).1
  | .setOp k m q n => set s k m q n
  | .deleteOp k => (delete s k).1
  | .evictOp => evictLeastUsed s
  | .clearOp => clear s
  | .maintainOp n => performMaintenance s n

/-- Run a sequence of cache operations. -/
def applyOps (s : CacheState) (ops : List CacheOp) : CacheState :=
  ops.foldl applyOp s

/-- A direct `set` is *fresh* when its key is not currently cached — the
discipline the sequential `get` path guarantees, since it only stores a
completed load after observing a miss for that key. -/
def opFresh (s : CacheState) : CacheOp → Bool
  | .setOp k _ _ _ => (mapLookup s.cache k).isNone
  | _ => true

/-- Every `set` in the sequence is fresh at the state it runs in. -/
def opsValid : CacheState → List CacheOp → Bool
  | _, [] => true
  | s, op :: ops => opFresh s op && opsValid (applyOp s op) ops

/-- The cache's intended internal consistency: the running size total
matches the live entries, keys and access order are duplicate-free and
track each other, entry sizes are nonnegative byte counts, both budgets
hold, and the configured budgets are sane (positive entry budget,
nonnegative size budget). -/
structure CacheInv (s : CacheState) : Prop where
  sizeEq : s.currentSize = liveSize s
  keysNodup : (mapKeys s.cache).Nodup
  orderNodup : s.accessOrder.Nodup
  orderIffKeys : ∀ k, k ∈ s.accessOrder ↔ k ∈ mapKeys s.cache
  sizesNonneg : ∀ kv ∈ s.cache, 0 ≤ kv.2.size
  entriesLe : s.cache.length ≤ s.maxEntries
  sizeLe : s.currentSize ≤ s.maxSize
  maxSizeNonneg : 0 ≤ s.maxSize
  maxEntriesPos : 1 ≤ s.maxEntries

end ModelCache

namespace LODManager

/-- The keys `performMemoryCleanup` deletes: the first
`(length + 3) / 4` of the five least-used entries. -/
def cleanupVictimKeys (c : ModelCache.CacheState) : List String :=
  let leastUsed := ModelCache.getLeastUsedEntries c 5
  ((leastUsed.take ((leastUsed.length + 3) / 4)).map Prod.fst)

end LODManager

/-! Concrete fixtures used by the witnesses and counterexamples. -/

/-- A loader environment in which every load fails. -/
def noLoader : String → Option Model := fun _ => none

/-- A loader environment in which only the locator `"pl"` loads. -/
def lowLoader : String → Option Model :=
  fun p => if p = "pl" then some ⟨7, 64⟩ else none

/-- A cache populated with twenty entries of size 1, each accessed once. -/
def s20 : ModelCache.CacheState :=
  (List.range 20).foldl
    (fun s i => ModelCache.set s ("k" ++ toString i) ⟨i, 1⟩ "low" 0)
    ModelCache.defaultCache

/-- A monitor state: memory record `{used 0, total 0, percentage 10}` at
address 0, metrics `fps 60` referencing it. -/
def mon0 : PerformanceMonitor.MonitorState :=
  { memStore := fun _ => ⟨0, 0, 10⟩
    currentMetrics := ⟨60, 0, 16, 0, 0, 0⟩ }

/-- A manager holding one registered, never-loaded asset `"e"` with a
high locator `"ph"`, no medium locator, and a low locator `"pl"`. -/
def wst : LODManager.LODState :=
  LODManager.registerModel noLoader LODManager.initLOD "e"
    ⟨some "ph", none, some "pl"⟩ ⟨none, none, some false, none⟩ 0

/-- The asset record `wst` stores for `"e"`. -/
def wcfg : LODManager.ModelConfig :=
  { entityId := "e"
    paths := ⟨some "ph", none, some "pl"⟩
    lodDistances := ⟨3, 8, 15⟩
    currentQuality := none
    isLoaded := false
    isVisible := false
    lastUpdate := 0
    memoryUsage := 0
    priority := 5
    preload := false
    element := none }

/-- A manager holding one asset `"f"` with locators for all three tiers. -/
def wst3 : LODManager.LODState :=
  LODManager.registerModel noLoader LODManager.initLOD "f"
    ⟨some "ph", some "pm", some "pl"⟩ ⟨none, none, some false, none⟩ 0

/-- A short operation sequence exercising every cache operation. -/
def wOps : List ModelCache.CacheOp :=
  [ .getOp "a" (some ⟨1, 10⟩) "low" 0
  , .setOp "b" ⟨2, 20⟩ "low" 1
  , .getOp "a" none "low" 2
  , .deleteOp "a"
  , .maintainOp 400000
  , .evictOp
  , .clearOp ]

/-! ### Association-list lemmas -/

theorem mapLookup_eq_none_iff {β : Type} (m : List (String × β)) (k : String) :
    mapLookup m k = none ↔ k ∉ mapKeys m := by
  induction m with
  | nil => simp [mapLookup, mapKeys]
  | cons kv rest ih =>
    obtain ⟨k', v⟩ := kv
    by_cases h : k' = k
    · subst h; simp [mapLookup, mapKeys]
    · simp [mapLookup, h, mapKeys, not_or, ih, Ne.symm h]

theorem mapLookup_isSome_of_mem {β : Type} {m : List (String × β)} {k : String}
    (h : k ∈ mapKeys m) : ∃ v, mapLookup m k = some v := by
  rcases hv : mapLookup m k with _ | v
  · exact absurd ((mapLookup_eq_none_iff m k).mp hv) (by simpa using h)
  · exact ⟨v, rfl⟩

theorem mapLookup_mem {β : Type} {m : List (String × β)} {k : String} {v : β}
    (h : mapLookup m k = some v) : (k, v) ∈ m := by
  induction m with
  | nil => simp [mapLookup] at h
  | cons kv rest ih =>
    obtain ⟨k', v'⟩ := kv
    by_cases hk : k' = k
    · subst hk
      simp [mapLookup] at h
      simp [h]
    · simp [mapLookup, hk] at h
      simp [ih h]

theorem mapLookup_mapSet_self {β : Type} (m : List (String × β)) (k : String) (v : β) :
    mapLookup (mapSet m k v) k = some v := by
  induction m with
  | nil => simp [mapSet, mapLookup]
  | cons kv rest ih =>
    obtain ⟨k', v'⟩ := kv
    by_cases h : k' = k <;> simp [mapSet, mapLookup, h, ih]

theorem mapKeys_cons {β : Type} (k : String) (v : β) (m : List (String × β)) :
    mapKeys ((k, v) :: m) = k :: mapKeys m := rfl

theorem mapKeys_mapSet_of_mem {β : Type} {m : List (String × β)} {k : String}
    (v : β) (h : k ∈ mapKeys m) : mapKeys (mapSet m k v) = mapKeys m := by
  induction m with
  | nil => simp [mapKeys] at h
  | cons kv rest ih =>
    obtain ⟨k', v'⟩ := kv
    by_cases hk : k' = k
    · subst hk
      simp [mapSet, mapKeys_cons]
    · rw [mapKeys_cons, List.mem_cons] at h
      rcases h with h1 | h1
      · exact absurd h1.symm hk
      · simp only [mapSet, if_neg hk]
        rw [mapKeys_cons, mapKeys_cons, ih h1]

theorem mapKeys_mapSet_of_not_mem {β : Type} {m : List (String × β)} {k : String}
    (v : β) (h : k ∉ mapKeys m) : mapKeys (mapSet m k v) = mapKeys m ++ [k] := by
  induction m with
  | nil => simp [mapSet, mapKeys]
  | cons kv rest ih =>
    obtain ⟨k', v'⟩ := kv
    rw [mapKeys_cons, List.mem_cons, not_or] at h
    have hk : ¬ k' = k := fun hh => h.1 hh.symm
    simp only [mapSet, if_neg hk]
    rw [mapKeys_cons, mapKeys_cons, ih h.2, List.cons_append]

theorem mem_mapSet {β : Type} {m : List (String × β)} {k : String} {v : β}
    {kv : String × β} (h : kv ∈ mapSet m k v) : kv ∈ m ∨ kv = (k, v) := by
  induction m with
  | nil =>
    simp [mapSet] at h
    simp [h]
  | cons kv' rest ih =>
    obtain ⟨k', v'⟩ := kv'
    by_cases hk : k' = k
    · subst hk
      simp [mapSet] at h
      rcases h with h | h
      · simp [h]
      · simp [h]
    · simp [mapSet, hk] at h
      rcases h with h | h
      · simp [h]
      · rcases ih h with h | h
        · simp [h]
        · simp [h]

theorem mapSet_eq_self {β : Type} {m : List (String × β)} {k : String} {v : β}
    (h : mapLookup m k = some v) : mapSet m k v = m := by
  induction m with
  | nil => simp [mapLookup] at h
  | cons kv rest ih =>
    obtain ⟨k', v'⟩ := kv
    by_cases hk : k' = k
    · subst hk
      simp [mapLookup] at h
      simp [mapSet, h]
    · simp [mapLookup, hk] at h
      simp [mapSet, hk, ih h]

theorem mapKeys_mapDelete {β : Type} (m : List (String × β)) (k : String) :
    mapKeys (mapDelete m k) = (mapKeys m).erase k := by
  induction m with
  | nil => simp [mapDelete, mapKeys]
  | cons kv rest ih =>
    obtain ⟨k', v'⟩ := kv
    by_cases hk : k' = k
    · subst hk
      simp [mapDelete, mapKeys]
    · simp only [mapDelete, if_neg hk, mapKeys, List.map_cons]
      rw [List.erase_cons_tail (by simpa using hk)]
      simpa [mapKeys] using ih

theorem mem_mapDelete {β : Type} {m : List (String × β)} {k : String}
    {kv : String × β} (h : kv ∈ mapDelete m k) : kv ∈ m := by
  induction m with
  | nil => simp [mapDelete] at h
  | cons kv' rest ih =>
    obtain ⟨k', v'⟩ := kv'
    by_cases hk : k' = k
    · subst hk
      simp [mapDelete] at h
      simp [h]
    · simp [mapDelete, hk] at h
      rcases h with h | h
      · simp [h]
      · simp [ih h]

theorem sum_mapDelete {β : Type} (f : β → ℤ) {m : List (String × β)}
    {k : String} {v : β} (h : mapLookup m k = some v) :
    ((mapDelete m k).map (fun kv => f kv.2)).sum
      = (m.map (fun kv => f kv.2)).sum - f v := by
  induction m with
  | nil => simp [mapLookup] at h
  | cons kv rest ih =>
    obtain ⟨k', v'⟩ := kv
    by_cases hk : k' = k
    · subst hk
      simp [mapLookup] at h
      simp [mapDelete, h]
    · simp [mapLookup, hk] at h
      simp [mapDelete, hk, ih h]
      ring

theorem sum_mapSet_of_not_mem {β : Type} (f : β → ℤ) {m : List (String × β)}
    {k : String} (v : β) (h : k ∉ mapKeys m) :
    ((mapSet m k v).map (fun kv => f kv.2)).sum
      = (m.map (fun kv => f kv.2)).sum + f v := by
  induction m with
  | nil => simp [mapSet]
  | cons kv rest ih =>
    obtain ⟨k', v'⟩ := kv
    rw [mapKeys_cons, List.mem_cons, not_or] at h
    have hk : ¬ k' = k := fun hh => h.1 hh.symm
    simp [mapSet, hk, ih h.2]
    ring

theorem sum_mapSet_of_lookup {β : Type} (f : β → ℤ) {m : List (String × β)}
    {k : String} {v' : β} (v : β) (h : mapLookup m k = some v')
    (hf : f v = f v') :
    ((mapSet m k v).map (fun kv => f kv.2)).sum
      = (m.map (fun kv => f kv.2)).sum := by
  induction m with
  | nil => simp [mapLookup] at h
  | cons kv rest ih =>
    obtain ⟨k', v'2⟩ := kv
    by_cases hk : k' = k
    · subst hk
      simp [mapLookup] at h
      simp [mapSet, h, hf]
    · simp [mapLookup, hk] at h
      simp [mapSet, hk, ih h]

theorem length_mapKeys {β : Type} (m : List (String × β)) :
    (mapKeys m).length = m.length := by
  simp [mapKeys]

theorem length_mapSet_of_mem {β : Type} {m : List (String × β)} {k : String}
    (v : β) (h : k ∈ mapKeys m) : (mapSet m k v).length = m.length := by
  rw [← length_mapKeys, ← length_mapKeys m, mapKeys_mapSet_of_mem v h]

theorem length_mapSet_of_not_mem {β : Type} {m : List (String × β)} {k : String}
    (v : β) (h : k ∉ mapKeys m) : (mapSet m k v).length = m.length + 1 := by
  rw [← length_mapKeys, ← length_mapKeys m, mapKeys_mapSet_of_not_mem v h]
  simp

theorem length_mapDelete_of_lookup {β : Type} {m : List (String × β)}
    {k : String} {v : β} (h : mapLookup m k = some v) :
    (mapDelete m k).length + 1 = m.length := by
  have hmem : k ∈ mapKeys m := by
    by_contra hn
    rw [← mapLookup_eq_none_iff] at hn
    simp [hn] at h
  have h1 : ((mapKeys m).erase k).length = (mapKeys m).length - 1 :=
    List.length_erase_of_mem hmem
  have h2 : 1 ≤ (mapKeys m).length := List.length_pos.mpr (by
    intro hnil
    simp [hnil] at hmem)
  rw [← length_mapKeys, ← length_mapKeys m, mapKeys_mapDelete]
  omega

theorem mapDelete_of_not_mem {β : Type} {m : List (String × β)} {k : String}
    (h : k ∉ mapKeys m) : mapDelete m k = m := by
  induction m with
  | nil => simp [mapDelete]
  | cons kv rest ih =>
    obtain ⟨k', v'⟩ := kv
    rw [mapKeys_cons, List.mem_cons, not_or] at h
    have hk : ¬ k' = k := fun hh => h.1 hh.symm
    simp [mapDelete, hk, ih h.2]

/-! ### Claim theorems -/

/-- C3: for every distance and every threshold configuration with
`near < medium < far`, `determineQuality` returns `high` iff the
distance is at most `near`, `medium` iff it lies strictly between `near`
and `medium` (inclusive on the right), and `low` iff it exceeds
`medium`; both boundaries are inclusive on the nearer side. -/
theorem determineQuality_thresholds (x : ℚ) (d : LODManager.LODDistances)
    (h1 : d.near < d.medium) (h2 : d.medium < d.far) :
    (LODManager.determineQuality x d = .high ↔ x ≤ d.near) ∧
    (LODManager.determineQuality x d = .medium ↔ d.near < x ∧ x ≤ d.medium) ∧
    (LODManager.determineQuality x d = .low ↔ d.medium < x) := by
  unfold LODManager.determineQuality
  split_ifs with ha hb
  · refine ⟨by simp [ha], ?_, ?_⟩
    · simp only [show (Quality.high = Quality.medium) ↔ False by simp, false_iff,
        not_and]
      intro hc
      linarith
    · simp only [show (Quality.high = Quality.low) ↔ False by simp, false_iff]
      intro hc
      linarith
  · push_neg at ha
    refine ⟨?_, by simp [ha, hb], ?_⟩
    · simp only [show (Quality.medium = Quality.high) ↔ False by simp, false_iff]
      intro hc
      linarith
    · simp only [show (Quality.medium = Quality.low) ↔ False by simp, false_iff]
      intro hc
      linarith
  · push_neg at ha hb
    refine ⟨?_, ?_, by simp [hb]⟩
    · simp only [show (Quality.low = Quality.high) ↔ False by simp, false_iff]
      intro hc
      linarith
    · simp only [show (Quality.low = Quality.medium) ↔ False by simp, false_iff,
        not_and]
      intro hc
      linarith

/-- Witness for C3 at the spec's example table: thresholds
`{near 3, medium 8, far 15}`, distances 1, 5 and 20. -/
theorem determineQuality_thresholds_witness :
    ((3:ℚ) < 8 ∧ (8:ℚ) < 15) ∧
    LODManager.determineQuality 1 ⟨3, 8, 15⟩ = .high ∧
    LODManager.determineQuality 5 ⟨3, 8, 15⟩ = .medium ∧
    LODManager.determineQuality 20 ⟨3, 8, 15⟩ = .low := by
  refine ⟨⟨by norm_num, by norm_num⟩, ?_, ?_, ?_⟩
  · exact (determineQuality_thresholds 1 ⟨3, 8, 15⟩ (by norm_num) (by norm_num)).1.mpr
      (by norm_num)
  · exact (determineQuality_thresholds 5 ⟨3, 8, 15⟩ (by norm_num) (by norm_num)).2.1.mpr
      (by norm_num)
  · exact (determineQuality_thresholds 20 ⟨3, 8, 15⟩ (by norm_num) (by norm_num)).2.2.mpr
      (by norm_num)

/-- C8: an instance whose estimated size exceeds half the configured
capacity (`size > maxSize * 0.5`, i.e. `2 * size > maxSize`) is rejected
by `set` as a complete no-op: the returned state is the unchanged input,
so no entry is stored, no size is added, the access order is untouched
and no eviction runs. -/
theorem set_rejects_oversized_model (s : ModelCache.CacheState) (key : String)
    (m : Model) (quality : String) (now : ℤ)
    (h : 2 * ModelCache.estimateModelSize m > s.maxSize) :
    ModelCache.set s key m quality now = s := by
  unfold ModelCache.set
  simp only [if_pos h]

/-- Witness for C8: capacity 100, estimated size 51. -/
theorem set_rejects_oversized_model_witness :
    2 * ModelCache.estimateModelSize ⟨0, 51⟩ > (ModelCache.initCache 100 50).maxSize ∧
    ModelCache.set (ModelCache.initCache 100 50) "k" ⟨0, 51⟩ "low" 0 =
      ModelCache.initCache 100 50 :=
  ⟨by decide, set_rejects_oversized_model (ModelCache.initCache 100 50) "k"
    ⟨0, 51⟩ "low" 0 (by decide)⟩

/-- C7 counterexample: `getCurrentMetrics` spreads `currentMetrics`
shallowly, so the snapshot's `memoryUsage` field is the observer's own
nested record; writing `snapshot.memoryUsage.percentage = 99` changes
the observer's internal metrics from 10 to 99. -/
theorem getCurrentMetrics_shared_memoryUsage_counterexample :
    PerformanceMonitor.observerMemoryPercentage mon0 = 10 ∧
    PerformanceMonitor.observerMemoryPercentage
      (PerformanceMonitor.writeSnapshotPercentage mon0
        (PerformanceMonitor.getCurrentMetrics mon0) 99) = 99 ∧
    (99 : ℤ) ≠ 10 := by
  refine ⟨rfl, rfl, by decide⟩

/-- C7 amended: the snapshot copies the top-level fields of
`currentMetrics` by value, but the nested `memoryUsage` object is shared
by reference, so for every observer state a caller that writes a nested
field through the snapshot does change the observer's internal state. -/
theorem getCurrentMetrics_shallow_copy (s : PerformanceMonitor.MonitorState)
    (v : ℤ) :
    (PerformanceMonitor.getCurrentMetrics s).fps = s.currentMetrics.fps ∧
    (PerformanceMonitor.getCurrentMetrics s).memoryUsage =
      s.currentMetrics.memoryUsage ∧
    PerformanceMonitor.observerMemoryPercentage
      (PerformanceMonitor.writeSnapshotPercentage s
        (PerformanceMonitor.getCurrentMetrics s) v) = v := by
  refine ⟨rfl, rfl, ?_⟩
  simp [PerformanceMonitor.observerMemoryPercentage,
    PerformanceMonitor.writeSnapshotPercentage,
    PerformanceMonitor.getCurrentMetrics]

/-- C5 counterexample: registering `"e"` with an empty source mapping
succeeds and stores a `ManagedAsset` — the registry lookup finds it — so
registration neither fails with `InvalidAsset` nor leaves the registry
unchanged. -/
theorem registerModel_empty_paths_counterexample :
    mapLookup (LODManager.registerModel noLoader LODManager.initLOD "e"
      ⟨none, none, none⟩ ⟨none, none, none, none⟩ 0).activeModels "e" ≠ none := by
  decide

/-- C5 amended: `registerModel` performs no validation of the source
mapping: with an empty `sourcesByQuality` it still stores the managed
asset (unloaded, quality unset, supplied or defaulted options), bumps
the registration counter, and — since no low-quality source exists —
never touches the cache; no error is raised. -/
theorem registerModel_empty_paths_stores_asset
    (ω : String → Option Model) (st : LODManager.LODState) (entityId : String)
    (options : LODManager.RegisterOptions) (now : ℤ) :
    mapLookup (LODManager.registerModel ω st entityId ⟨none, none, none⟩
        options now).activeModels entityId =
      some
        { entityId := entityId
          paths := ⟨none, none, none⟩
          lodDistances := options.lodDistances.getD st.distances
          currentQuality := none
          isLoaded := false
          isVisible := false
          lastUpdate := 0
          memoryUsage := 0
          priority := LODManager.jsOrDefault options.priority 5
          preload := options.preload.getD true
          element := options.element } ∧
    (LODManager.registerModel ω st entityId ⟨none, none, none⟩ options
        now).modelCache = st.modelCache ∧
    (LODManager.registerModel ω st entityId ⟨none, none, none⟩ options
        now).modelsRegistered = st.modelsRegistered + 1 := by
  unfold LODManager.registerModel
  simp [mapLookup_mapSet_self]

/-- C9: `unloadModel` on an unknown asset id, or on an asset that is
already unloaded (`isLoaded` false, `currentQuality` unset), returns the
manager state completely unchanged — no registry mutation, no event, no
error. -/
theorem unloadModel_idempotent (st : LODManager.LODState) (entityId : String) :
    (mapLookup st.activeModels entityId = none →
      LODManager.unloadModel st entityId = st) ∧
    (∀ cfg, mapLookup st.activeModels entityId = some cfg →
      cfg.isLoaded = false → cfg.currentQuality = none →
      LODManager.unloadModel st entityId = st) := by
  constructor
  · intro h
    unfold LODManager.unloadModel
    simp [h]
  · intro cfg h hl hq
    unfold LODManager.unloadModel
    simp only [h]
    have hcfg : ({ cfg with isLoaded := false, currentQuality := none }
        : LODManager.ModelConfig) = cfg := by
      cases cfg
      simp_all
    rw [hcfg, mapSet_eq_self h]

/-- Witness for C9: the registered-but-never-loaded asset `"e"` of
`wst` is unloaded; the state is unchanged. -/
theorem unloadModel_idempotent_witness :
    mapLookup wst.activeModels "e" = some wcfg ∧
    wcfg.isLoaded = false ∧ wcfg.currentQuality = none ∧
    LODManager.unloadModel wst "e" = wst :=
  ⟨by decide, by decide, by decide,
    (unloadModel_idempotent wst "e").2 wcfg (by decide) (by decide) (by decide)⟩

/-- C1 (code-bug evidence): under the schedule of the claim — a second
`get` for key `"k"` issued while the first call's load is in flight —
the cache, which tracks no in-flight loads, misses twice and invokes the
loader twice (not once); the second caller receives the outcome of its
own duplicate load, and the duplicate completion double-counts the size
total (`currentSize` 20 against 10 bytes of live entries). -/
theorem modelCache_concurrentGet_invokes_loader_twice :
    (ModelCache.concurrentGetPair ModelCache.defaultCache "k" ⟨1, 10⟩ ⟨2, 10⟩
      "high").2.1 = 2 ∧
    (ModelCache.concurrentGetPair ModelCache.defaultCache "k" ⟨1, 10⟩ ⟨2, 10⟩
      "high").2.2.2 = some ⟨2, 10⟩ ∧
    some (⟨2, 10⟩ : Model) ≠ some (⟨1, 10⟩ : Model) ∧
    (ModelCache.concurrentGetPair ModelCache.defaultCache "k" ⟨1, 10⟩ ⟨2, 10⟩
      "high").1.currentSize = 20 ∧
    ModelCache.liveSize (ModelCache.concurrentGetPair ModelCache.defaultCache
      "k" ⟨1, 10⟩ ⟨2, 10⟩ "high").1 = 10 := by
  refine ⟨by decide, by decide, by decide, by decide, by decide⟩

/-- C2 counterexample: two completed `set`s for the same key (exactly
what two overlapping loads produce, since nothing deduplicates them)
leave `currentSize` at 30 while the single live entry has size 20 — the
tracked size no longer equals the sum of live entry sizes. -/
theorem cache_size_invariant_counterexample :
    (ModelCache.set (ModelCache.set ModelCache.defaultCache "k" ⟨1, 10⟩ "low" 0)
      "k" ⟨2, 20⟩ "low" 0).currentSize = 30 ∧
    ModelCache.liveSize
      (ModelCache.set (ModelCache.set ModelCache.defaultCache "k" ⟨1, 10⟩ "low" 0)
        "k" ⟨2, 20⟩ "low" 0) = 20 ∧
    (30 : ℤ) ≠ 20 := by
  refine ⟨by decide, by decide, by decide⟩

set_option maxRecDepth 8000

/-- C6 counterexample: with twenty cached entries and memory pressure at
90%, the cleanup step removes only 2 entries (the first quarter, rounded
up, of the *five* returned by `getStats().leastUsed`), not the
`⌈20 × 0.25⌉ = 5` entries the claim's "least-recently-used 25% of the
cache's entries" requires. -/
theorem performMemoryCleanup_count_counterexample :
    s20.cache.length = 20 ∧
    (LODManager.optimizationMemoryStep 90 s20).cache.length = 18 ∧
    ((20 : ℕ) + 3) / 4 = 5 ∧
    (18 : ℕ) ≠ 20 - 5 := by
  refine ⟨by decide, by decide, by decide, by decide⟩

/-! ### Quality-transition lemmas -/

theorem preloadModel_miss_fail (ω : String → Option Model)
    (st : LODManager.LODState) (e : String) (q : Quality) (now : ℤ)
    {cfg : LODManager.ModelConfig} {path : String}
    (hcfg : mapLookup st.activeModels e = some cfg)
    (hpath : cfg.paths.get q = some path)
    (hmiss : mapLookup st.modelCache.cache (LODManager.cacheKey e q) = none)
    (hfail : ω path = none) :
    (LODManager.preloadModel ω st e q now).2 = none ∧
    (LODManager.preloadModel ω st e q now).1.activeModels = st.activeModels ∧
    (LODManager.preloadModel ω st e q now).1.events = st.events ∧
    (LODManager.preloadModel ω st e q now).1.loaderCalls =
      st.loaderCalls ++ [(e, q)] ∧
    (LODManager.preloadModel ω st e q now).1.modelCache.cache =
      st.modelCache.cache := by
  unfold LODManager.preloadModel
  simp [hcfg, hpath, hmiss, hfail, ModelCache.get]

theorem preloadModel_miss_success (ω : String → Option Model)
    (st : LODManager.LODState) (e : String) (q : Quality) (now : ℤ)
    {cfg : LODManager.ModelConfig} {path : String} {m : Model}
    (hcfg : mapLookup st.activeModels e = some cfg)
    (hpath : cfg.paths.get q = some path)
    (hmiss : mapLookup st.modelCache.cache (LODManager.cacheKey e q) = none)
    (hload : ω path = some m) :
    (LODManager.preloadModel ω st e q now).2 = some m ∧
    (LODManager.preloadModel ω st e q now).1.activeModels = st.activeModels ∧
    (LODManager.preloadModel ω st e q now).1.events = st.events ∧
    (LODManager.preloadModel ω st e q now).1.loaderCalls =
      st.loaderCalls ++ [(e, q)] := by
  unfold LODManager.preloadModel
  simp [hcfg, hpath, hmiss, hload, ModelCache.get]

theorem changeModelQuality_of_no_path (ω : String → Option Model)
    (st : LODManager.LODState) (e : String) (q : Quality) (now : ℤ)
    {cfg : LODManager.ModelConfig}
    (hcfg : mapLookup st.activeModels e = some cfg)
    (hpath : cfg.paths.get q = none) :
    LODManager.changeModelQuality ω st e q now = st := by
  unfold LODManager.changeModelQuality
  simp [hcfg, hpath]

theorem changeModelQuality_high_fail_step {ω : String → Option Model}
    {st : LODManager.LODState} {e : String} {now : ℤ}
    {cfg : LODManager.ModelConfig} {path : String}
    (hcfg : mapLookup st.activeModels e = some cfg)
    (hpath : cfg.paths.get .high = some path)
    (hpre : (LODManager.preloadModel ω st e .high now).2 = none) :
    LODManager.changeModelQuality ω st e .high now =
      LODManager.changeModelQuality ω
        (LODManager.preloadModel ω st e .high now).1 e .medium now := by
  conv_lhs => rw [LODManager.changeModelQuality]
  simp [hcfg, hpath, hpre]

theorem changeModelQuality_medium_fail_step {ω : String → Option Model}
    {st : LODManager.LODState} {e : String} {now : ℤ}
    {cfg : LODManager.ModelConfig} {path : String}
    (hcfg : mapLookup st.activeModels e = some cfg)
    (hpath : cfg.paths.get .medium = some path)
    (hpre : (LODManager.preloadModel ω st e .medium now).2 = none) :
    LODManager.changeModelQuality ω st e .medium now =
      LODManager.changeModelQuality ω
        (LODManager.preloadModel ω st e .medium now).1 e .low now := by
  conv_lhs => rw [LODManager.changeModelQuality]
  simp [hcfg, hpath, hpre]

theorem changeModelQuality_success_step {ω : String → Option Model}
    {st : LODManager.LODState} {e : String} {q : Quality} {now : ℤ}
    {cfg : LODManager.ModelConfig} {path : String} {m : Model}
    (hcfg : mapLookup st.activeModels e = some cfg)
    (hpath : cfg.paths.get q = some path)
    (hpre : (LODManager.preloadModel ω st e q now).2 = some m) :
    LODManager.changeModelQuality ω st e q now =
      { (LODManager.preloadModel ω st e q now).1 with
          activeModels :=
            mapSet (LODManager.preloadModel ω st e q now).1.activeModels e
              { cfg with currentQuality := some q, isLoaded := true }
          qualityChanges :=
            (LODManager.preloadModel ω st e q now).1.qualityChanges + 1
          events := (LODManager.preloadModel ω st e q now).1.events ++
            [LODManager.LODEvent.qualityChange e cfg.currentQuality q] } := by
  conv_lhs => rw [LODManager.changeModelQuality]
  simp [hcfg, hpath, hpre]

/-- C10: when a registered asset has no locator for the target quality,
`changeModelQuality` returns with the manager state identical — no
loader, no cache traffic, no registry change, no event.  Consequently a
failed high-quality load for an asset lacking a `medium` locator ends
the fallback silently: only the high tier is ever attempted (one loader
call), and the registry and event log are untouched — the `low` tier is
never tried. -/
theorem changeModelQuality_missing_path_noop (ω : String → Option Model)
    (st : LODManager.LODState) (entityId : String) (now : ℤ) :
    (∀ cfg q, mapLookup st.activeModels entityId = some cfg →
      cfg.paths.get q = none →
      LODManager.changeModelQuality ω st entityId q now = st) ∧
    (∀ cfg ph, mapLookup st.activeModels entityId = some cfg →
      cfg.paths.get .high = some ph → cfg.paths.get .medium = none →
      ω ph = none →
      mapLookup st.modelCache.cache (LODManager.cacheKey entityId .high) = none →
      (LODManager.changeModelQuality ω st entityId .high now).activeModels =
        st.activeModels ∧
      (LODManager.changeModelQuality ω st entityId .high now).events =
        st.events ∧
      (LODManager.changeModelQuality ω st entityId .high now).loaderCalls =
        st.loaderCalls ++ [(entityId, Quality.high)]) := by
  constructor
  · intro cfg q hcfg hpath
    exact changeModelQuality_of_no_path ω st entityId q now hcfg hpath
  · intro cfg ph hcfg hph hpm hfail hmiss
    obtain ⟨h1, h2, h3, h4, h5⟩ :=
      preloadModel_miss_fail ω st entityId .high now hcfg hph hmiss hfail
    rw [changeModelQuality_high_fail_step hcfg hph h1,
      changeModelQuality_of_no_path ω
        (LODManager.preloadModel ω st entityId .high now).1 entityId .medium now
        (by rw [h2]; exact hcfg) hpm]
    exact ⟨h2, h3, h4⟩

/-- Witness for C10 on the fixture `wst` (asset `"e"`, high locator
`"ph"`, no medium locator), with every load failing. -/
theorem changeModelQuality_missing_path_noop_witness :
    LODManager.changeModelQuality noLoader wst "e" .medium 0 = wst ∧
    ((LODManager.changeModelQuality noLoader wst "e" .high 0).activeModels =
        wst.activeModels ∧
      (LODManager.changeModelQuality noLoader wst "e" .high 0).events =
        wst.events ∧
      (LODManager.changeModelQuality noLoader wst "e" .high 0).loaderCalls =
        wst.loaderCalls ++ [("e", Quality.high)]) :=
  ⟨(changeModelQuality_missing_path_noop noLoader wst "e" 0).1 wcfg .medium
      (by decide) (by decide),
    (changeModelQuality_missing_path_noop noLoader wst "e" 0).2 wcfg "ph"
      (by decide) (by decide) (by decide) (by decide) (by decide)⟩

/-- C4: for a registered asset with locators at all three tiers whose
loads fail at high and at medium but succeed at low (none of the tiers
being cached), a transition to high walks the fallback chain with
exactly one loader invocation per tier — high, then medium, then low —
and ends with the asset recorded at quality low and loaded, emitting the
single quality-change event of the completed low transition; the low
failure handler retries nothing further, so no fourth invocation
exists. -/
theorem changeModelQuality_fallback_chain (ω : String → Option Model)
    (st : LODManager.LODState) (e : String) (now : ℤ)
    (cfg : LODManager.ModelConfig) (ph pm pl : String) (m : Model)
    (hcfg : mapLookup st.activeModels e = some cfg)
    (hph : cfg.paths.get .high = some ph)
    (hpm : cfg.paths.get .medium = some pm)
    (hpl : cfg.paths.get .low = some pl)
    (hfh : ω ph = none) (hfm : ω pm = none) (hsl : ω pl = some m)
    (hmh : mapLookup st.modelCache.cache (LODManager.cacheKey e .high) = none)
    (hmm : mapLookup st.modelCache.cache (LODManager.cacheKey e .medium) = none)
    (hml : mapLookup st.modelCache.cache (LODManager.cacheKey e .low) = none) :
    mapLookup (LODManager.changeModelQuality ω st e .high now).activeModels e =
      some { cfg with currentQuality := some Quality.low, isLoaded := true } ∧
    (LODManager.changeModelQuality ω st e .high now).loaderCalls =
      st.loaderCalls ++
        [(e, Quality.high), (e, Quality.medium), (e, Quality.low)] ∧
    (LODManager.changeModelQuality ω st e .high now).events =
      st.events ++
        [LODManager.LODEvent.qualityChange e cfg.currentQuality Quality.low] := by
  obtain ⟨a1, a2, a3, a4, a5⟩ :=
    preloadModel_miss_fail ω st e .high now hcfg hph hmh hfh
  have hcfg1 : mapLookup (LODManager.preloadModel ω st e .high
      now).1.activeModels e = some cfg := by rw [a2]; exact hcfg
  have hmm1 : mapLookup (LODManager.preloadModel ω st e .high
      now).1.modelCache.cache (LODManager.cacheKey e .medium) = none := by
    rw [a5]; exact hmm
  obtain ⟨b1, b2, b3, b4, b5⟩ :=
    preloadModel_miss_fail ω (LODManager.preloadModel ω st e .high now).1 e
      .medium now hcfg1 hpm hmm1 hfm
  have hcfg2 : mapLookup (LODManager.preloadModel ω
      (LODManager.preloadModel ω st e .high now).1 e .medium
      now).1.activeModels e = some cfg := by rw [b2, a2]; exact hcfg
  have hml2 : mapLookup (LODManager.preloadModel ω
      (LODManager.preloadModel ω st e .high now).1 e .medium
      now).1.modelCache.cache (LODManager.cacheKey e .low) = none := by
    rw [b5, a5]; exact hml
  obtain ⟨c1, c2, c3, c4⟩ :=
    preloadModel_miss_success ω
      (LODManager.preloadModel ω (LODManager.preloadModel ω st e .high now).1 e
        .medium now).1 e .low now hcfg2 hpl hml2 hsl
  rw [changeModelQuality_high_fail_step hcfg hph a1,
    changeModelQuality_medium_fail_step hcfg1 hpm b1,
    changeModelQuality_success_step hcfg2 hpl c1]
  refine ⟨by simp [mapLookup_mapSet_self], ?_, ?_⟩
  · simp [c4, b4, a4]
  · simp [c3, b3, a3]

/-- Witness for C4 on the fixture `wst3` (asset `"f"` with locators
`"ph"`, `"pm"`, `"pl"`) under the loader that only loads `"pl"`. -/
theorem changeModelQuality_fallback_chain_witness :
    mapLookup (LODManager.changeModelQuality lowLoader wst3 "f" .high
        0).activeModels "f" =
      some
        { entityId := "f"
          paths := ⟨some "ph", some "pm", some "pl"⟩
          lodDistances := ⟨3, 8, 15⟩
          currentQuality := some Quality.low
          isLoaded := true
          isVisible := false
          lastUpdate := 0
          memoryUsage := 0
          priority := 5
          preload := false
          element := none } ∧
    (LODManager.changeModelQuality lowLoader wst3 "f" .high 0).loaderCalls =
      wst3.loaderCalls ++
        [("f", Quality.high), ("f", Quality.medium), ("f", Quality.low)] ∧
    (LODManager.changeModelQuality lowLoader wst3 "f" .high 0).events =
      wst3.events ++ [LODManager.LODEvent.qualityChange "f" none Quality.low] :=
  changeModelQuality_fallback_chain lowLoader wst3 "f" 0
    { entityId := "f"
      paths := ⟨some "ph", some "pm", some "pl"⟩
      lodDistances := ⟨3, 8, 15⟩
      currentQuality := none
      isLoaded := false
      isVisible := false
      lastUpdate := 0
      memoryUsage := 0
      priority := 5
      preload := false
      element := none }
    "ph" "pm" "pl" ⟨7, 64⟩ (by decide) (by decide) (by decide) (by decide)
    (by decide) (by decide) (by decide) (by decide) (by decide) (by decide)

/-! ### Cache-invariant preservation -/

theorem inv_counters (s : ModelCache.CacheState) (h : ModelCache.CacheInv s)
    (tr ch cm : ℕ) (ev : List ModelCache.CacheEvent) :
    ModelCache.CacheInv
      { s with totalRequests := tr, cacheHits := ch, cacheMisses := cm,
               events := ev } :=
  ⟨h.sizeEq, h.keysNodup, h.orderNodup, h.orderIffKeys, h.sizesNonneg,
    h.entriesLe, h.sizeLe, h.maxSizeNonneg, h.maxEntriesPos⟩

theorem inv_clear (s : ModelCache.CacheState) (h : ModelCache.CacheInv s) :
    ModelCache.CacheInv (ModelCache.clear s) := by
  refine ⟨?_, ?_, ?_, ?_, ?_, ?_, ?_, ?_, ?_⟩ <;>
    simp [ModelCache.clear, ModelCache.liveSize, mapKeys] <;>
    first
      | exact h.maxSizeNonneg
      | exact h.maxEntriesPos

theorem inv_evictLeastUsed (s : ModelCache.CacheState)
    (h : ModelCache.CacheInv s) :
    ModelCache.CacheInv (ModelCache.evictLeastUsed s) ∧
    (ModelCache.evictLeastUsed s).maxSize = s.maxSize ∧
    (ModelCache.evictLeastUsed s).maxEntries = s.maxEntries ∧
    (∀ k, k ∈ mapKeys (ModelCache.evictLeastUsed s).cache →
      k ∈ mapKeys s.cache) ∧
    (∀ k rest, s.accessOrder = k :: rest →
      (ModelCache.evictLeastUsed s).accessOrder = rest) := by
  rcases horder : s.accessOrder with _ | ⟨k, rest⟩
  · refine ⟨?_, ?_, ?_, ?_, ?_⟩ <;> simp [ModelCache.evictLeastUsed, horder]
    exact h
  · have hkmem : k ∈ mapKeys s.cache :=
      (h.orderIffKeys k).mp (by rw [horder]; exact List.mem_cons_self k rest)
    obtain ⟨e, he⟩ := mapLookup_isSome_of_mem hkmem
    have hepair : (k, e) ∈ s.cache := mapLookup_mem he
    have hesize : 0 ≤ e.size := h.sizesNonneg (k, e) hepair
    have hres : ModelCache.evictLeastUsed s =
        { s with
          events := s.events ++ [ModelCache.CacheEvent.evictionEv k "lru"]
          cache := mapDelete s.cache k
          currentSize := s.currentSize - e.size
          accessOrder := s.accessOrder.erase k } := by
      unfold ModelCache.evictLeastUsed
      rw [horder]
      simp [he, horder]
    have horder' : s.accessOrder.erase k = rest := by
      rw [horder, List.erase_cons_head]
    have hlen := length_mapDelete_of_lookup he
    refine ⟨⟨?_, ?_, ?_, ?_, ?_, ?_, ?_, ?_, ?_⟩, ?_, ?_, ?_, ?_⟩
    · rw [hres]
      show s.currentSize - e.size = ModelCache.liveSize _
      simp only [ModelCache.liveSize]
      rw [sum_mapDelete (fun v => v.size) he]
      have h1 := h.sizeEq
      simp only [ModelCache.liveSize] at h1
      omega
    · rw [hres]
      simp only [mapKeys_mapDelete]
      exact h.keysNodup.erase k
    · rw [hres, horder']
      exact (horder ▸ h.orderNodup).of_cons
    · rw [hres, horder']
      intro j
      simp only [mapKeys_mapDelete]
      have hnodup := horder ▸ h.orderNodup
      constructor
      · intro hj
        rw [(h.keysNodup).mem_erase_iff]
        have hjo : j ∈ s.accessOrder := by
          rw [horder]
          exact List.mem_cons_of_mem k hj
        refine ⟨?_, (h.orderIffKeys j).mp hjo⟩
        intro hjk
        subst hjk
        exact (List.nodup_cons.mp hnodup).1 hj
      · intro hj
        rw [(h.keysNodup).mem_erase_iff] at hj
        have hjo : j ∈ s.accessOrder := (h.orderIffKeys j).mpr hj.2
        rw [horder, List.mem_cons] at hjo
        rcases hjo with hjo | hjo
        · exact absurd hjo hj.1
        · exact hjo
    · rw [hres]
      intro kv hkv
      exact h.sizesNonneg kv (mem_mapDelete hkv)
    · rw [hres]
      show (mapDelete s.cache k).length ≤ s.maxEntries
      have h1 := h.entriesLe
      omega
    · rw [hres]
      show s.currentSize - e.size ≤ s.maxSize
      have h1 := h.sizeLe
      linarith
    · rw [hres]
      exact h.maxSizeNonneg
    · rw [hres]
      exact h.maxEntriesPos
    · rw [hres]
    · rw [hres]
    · rw [hres]
      intro j hj
      rw [mapKeys_mapDelete] at hj
      exact List.erase_subset _ _ hj
    · intro k' rest' heq
      injection heq with h1 h2
      subst h1
      subst h2
      rw [hres]
      show s.accessOrder.erase k = rest
      exact horder'

theorem ensureSpaceGo_spec (fuel : ℕ) :
    ∀ (s : ModelCache.CacheState) (r : ℤ),
      ModelCache.CacheInv s → 0 ≤ r → r ≤ s.maxSize →
      s.accessOrder.length < fuel →
      ModelCache.CacheInv (ModelCache.ensureSpaceGo fuel s r) ∧
      (ModelCache.ensureSpaceGo fuel s r).maxSize = s.maxSize ∧
      (ModelCache.ensureSpaceGo fuel s r).maxEntries = s.maxEntries ∧
      (ModelCache.ensureSpaceGo fuel s r).currentSize + r ≤ s.maxSize ∧
      (ModelCache.ensureSpaceGo fuel s r).cache.length < s.maxEntries ∧
      (∀ k, k ∈ mapKeys (ModelCache.ensureSpaceGo fuel s r).cache →
        k ∈ mapKeys s.cache) := by
  induction fuel with
  | zero =>
    intro s r _ _ _ hlen
    omega
  | succ fuel ih =>
    intro s r hInv hr hrle hlen
    by_cases hcond : s.currentSize + r > s.maxSize ∨ s.maxEntries ≤ s.cache.length
    · by_cases hord : s.accessOrder.isEmpty
      · exfalso
        have hordnil : s.accessOrder = [] := by simpa using hord
        have hkeys : mapKeys s.cache = [] := by
          by_contra hne
          rcases List.exists_mem_of_ne_nil _ hne with ⟨k, hk⟩
          have hmem := (hInv.orderIffKeys k).mpr hk
          rw [hordnil] at hmem
          simp at hmem
        have hcache : s.cache = [] := by
          have hl := length_mapKeys s.cache
          rw [hkeys] at hl
          exact List.length_eq_zero.mp (by simpa using hl.symm)
        have hcs : s.currentSize = 0 := by
          rw [hInv.sizeEq]
          simp [ModelCache.liveSize, hcache]
        rcases hcond with hc | hc
        · rw [hcs] at hc
          omega
        · rw [hcache] at hc
          simp at hc
          have := hInv.maxEntriesPos
          omega
      · have hordne : s.accessOrder ≠ [] := by simpa using hord
        rcases hordex : s.accessOrder with _ | ⟨k, rest⟩
        · exact absurd hordex hordne
        obtain ⟨hInv', hms', hme', hsub', hord'⟩ := inv_evictLeastUsed s hInv
        have horder2 : (ModelCache.evictLeastUsed s).accessOrder = rest :=
          hord' k rest hordex
        have hlen' : (ModelCache.evictLeastUsed s).accessOrder.length < fuel := by
          rw [horder2]
          rw [hordex] at hlen
          simpa using Nat.lt_of_succ_lt_succ hlen
        have hrle' : r ≤ (ModelCache.evictLeastUsed s).maxSize := by
          rw [hms']
          exact hrle
        obtain ⟨R1, R2, R3, R4, R5, R6⟩ :=
          ih (ModelCache.evictLeastUsed s) r hInv' hr hrle' hlen'
        have hstep : ModelCache.ensureSpaceGo (fuel + 1) s r =
            ModelCache.ensureSpaceGo fuel (ModelCache.evictLeastUsed s) r := by
          conv_lhs => unfold ModelCache.ensureSpaceGo
          rw [if_pos hcond]
          simp [hord]
        rw [hstep]
        refine ⟨R1, by rw [R2, hms'], by rw [R3, hme'], ?_, ?_, ?_⟩
        · rw [hms'] at R4
          exact R4
        · rw [hme'] at R5
          exact R5
        · intro j hj
          exact hsub' j (R6 j hj)
    · have hstep : ModelCache.ensureSpaceGo (fuel + 1) s r = s := by
        conv_lhs => unfold ModelCache.ensureSpaceGo
        rw [if_neg hcond]
      rw [hstep]
      push_neg at hcond
      refine ⟨hInv, rfl, rfl, by linarith [hcond.1], hcond.2, fun k hk => hk⟩

theorem inv_updateAccess (s : ModelCache.CacheState) (key : String) (now : ℤ)
    (h : ModelCache.CacheInv s) (hk : key ∈ mapKeys s.cache) :
    ModelCache.CacheInv (ModelCache.updateAccess s key now) ∧
    (ModelCache.updateAccess s key now).maxSize = s.maxSize ∧
    (ModelCache.updateAccess s key now).maxEntries = s.maxEntries := by
  obtain ⟨e, he⟩ := mapLookup_isSome_of_mem hk
  have hres : ModelCache.updateAccess s key now =
      { s with
        cache := mapSet s.cache key
          { e with lastAccess := now, accessCount := e.accessCount + 1 }
        accessOrder := (s.accessOrder.erase key) ++ [key] } := by
    unfold ModelCache.updateAccess ModelCache.updateAccessOrder
    simp [he]
  have hordk : key ∈ s.accessOrder := (h.orderIffKeys key).mpr hk
  rw [hres]
  refine ⟨⟨?_, ?_, ?_, ?_, ?_, ?_, ?_, ?_, ?_⟩, rfl, rfl⟩
  · show s.currentSize = ModelCache.liveSize _
    simp only [ModelCache.liveSize]
    rw [sum_mapSet_of_lookup (fun (v : ModelCache.CacheEntry) => v.size)
      ({ e with lastAccess := now, accessCount := e.accessCount + 1 }
        : ModelCache.CacheEntry) he rfl]
    have h1 := h.sizeEq
    simp only [ModelCache.liveSize] at h1
    exact h1
  · show (mapKeys (mapSet s.cache key _)).Nodup
    rw [mapKeys_mapSet_of_mem _ hk]
    exact h.keysNodup
  · show ((s.accessOrder.erase key) ++ [key]).Nodup
    rw [List.nodup_append]
    refine ⟨h.orderNodup.erase key, List.nodup_singleton key, ?_⟩
    intro j hj
    simp only [List.mem_singleton]
    intro hjk
    subst hjk
    rw [h.orderNodup.mem_erase_iff] at hj
    exact hj.1 rfl
  · intro j
    show j ∈ (s.accessOrder.erase key) ++ [key] ↔ j ∈ mapKeys (mapSet s.cache key _)
    rw [mapKeys_mapSet_of_mem _ hk, List.mem_append, List.mem_singleton,
      h.orderNodup.mem_erase_iff]
    constructor
    · rintro (⟨-, hj⟩ | rfl)
      · exact (h.orderIffKeys j).mp hj
      · exact hk
    · intro hj
      by_cases hjk : j = key
      · exact Or.inr hjk
      · exact Or.inl ⟨hjk, (h.orderIffKeys j).mpr hj⟩
  · intro kv hkv
    rcases mem_mapSet hkv with hkv | hkv
    · exact h.sizesNonneg kv hkv
    · rw [hkv]
      exact h.sizesNonneg (key, e) (mapLookup_mem he)
  · show (mapSet s.cache key _).length ≤ s.maxEntries
    rw [length_mapSet_of_mem _ hk]
    exact h.entriesLe
  · exact h.sizeLe
  · exact h.maxSizeNonneg
  · exact h.maxEntriesPos

theorem inv_set (s : ModelCache.CacheState) (key : String) (model : Model)
    (quality : String) (now : ℤ) (h : ModelCache.CacheInv s)
    (hfresh : mapLookup s.cache key = none) :
    ModelCache.CacheInv (ModelCache.set s key model quality now) ∧
    (ModelCache.set s key model quality now).maxSize = s.maxSize ∧
    (ModelCache.set s key model quality now).maxEntries = s.maxEntries := by
  have hsz : (0 : ℤ) ≤ ModelCache.estimateModelSize model :=
    Int.natCast_nonneg model.estSize
  by_cases hbig : 2 * ModelCache.estimateModelSize model > s.maxSize
  · have : ModelCache.set s key model quality now = s := by
      unfold ModelCache.set
      rw [if_pos hbig]
    rw [this]
    exact ⟨h, rfl, rfl⟩
  · push_neg at hbig
    have hrle : ModelCache.estimateModelSize model ≤ s.maxSize := by linarith
    obtain ⟨E1, E2, E3, E4, E5, E6⟩ :=
      ensureSpaceGo_spec (s.accessOrder.length + 1) s
        (ModelCache.estimateModelSize model) h hsz hrle (Nat.lt_succ_self _)
    have hfresh1 : key ∉
        mapKeys (ModelCache.ensureSpace s (ModelCache.estimateModelSize model)).cache := by
      intro hmem
      exact (mapLookup_eq_none_iff s.cache key).mp hfresh
        (E6 key (by simpa [ModelCache.ensureSpace] using hmem))
    have hford : key ∉
        (ModelCache.ensureSpace s (ModelCache.estimateModelSize model)).accessOrder :=
      fun hmem => hfresh1 ((E1.orderIffKeys key).mp (by
        simpa [ModelCache.ensureSpace] using hmem))
    have hres : ModelCache.set s key model quality now =
        { ModelCache.ensureSpace s (ModelCache.estimateModelSize model) with
          cache := mapSet
            (ModelCache.ensureSpace s (ModelCache.estimateModelSize model)).cache key
            { model := model, size := ModelCache.estimateModelSize model
              lastAccess := now, accessCount := 1, quality := quality }
          currentSize :=
            (ModelCache.ensureSpace s (ModelCache.estimateModelSize model)).currentSize +
              ModelCache.estimateModelSize model
          accessOrder :=
            ((ModelCache.ensureSpace s
              (ModelCache.estimateModelSize model)).accessOrder.erase key) ++ [key] } := by
      unfold ModelCache.set ModelCache.updateAccessOrder
      rw [if_neg (by push_neg; exact hbig)]
    rw [hres]
    rw [List.erase_of_not_mem hford]
    have hE1 := E1
    simp only [ModelCache.ensureSpace] at hE1 hfresh1 E2 E3 E4 E5
    refine ⟨⟨?_, ?_, ?_, ?_, ?_, ?_, ?_, ?_, ?_⟩, ?_, ?_⟩
    · show _ + _ = ModelCache.liveSize _
      simp only [ModelCache.liveSize, ModelCache.ensureSpace]
      rw [sum_mapSet_of_not_mem (fun v => v.size) _ hfresh1]
      have h1 := hE1.sizeEq
      simp only [ModelCache.liveSize] at h1
      rw [h1]
    · show (mapKeys (mapSet _ _ _)).Nodup
      simp only [ModelCache.ensureSpace]
      rw [mapKeys_mapSet_of_not_mem _ hfresh1]
      rw [List.nodup_append]
      exact ⟨hE1.keysNodup, List.nodup_singleton key,
        fun j hj => by
          simp only [List.mem_singleton]
          intro hjk
          subst hjk
          exact hfresh1 hj⟩
    · show (_ ++ [key]).Nodup
      simp only [ModelCache.ensureSpace]
      rw [List.nodup_append]
      exact ⟨hE1.orderNodup, List.nodup_singleton key,
        fun j hj => by
          simp only [List.mem_singleton]
          intro hjk
          subst hjk
          exact hford (by simpa [ModelCache.ensureSpace] using hj)⟩
    · intro j
      show j ∈ _ ++ [key] ↔ j ∈ mapKeys (mapSet _ _ _)
      simp only [ModelCache.ensureSpace]
      rw [mapKeys_mapSet_of_not_mem _ hfresh1]
      simp only [List.mem_append, List.mem_singleton]
      constructor
      · rintro (hj | rfl)
        · exact Or.inl ((hE1.orderIffKeys j).mp hj)
        · exact Or.inr rfl
      · rintro (hj | rfl)
        · exact Or.inl ((hE1.orderIffKeys j).mpr hj)
        · exact Or.inr rfl
    · intro kv hkv
      simp only [ModelCache.ensureSpace] at hkv
      rcases mem_mapSet hkv with hkv | hkv
      · exact hE1.sizesNonneg kv hkv
      · rw [hkv]
        exact hsz
    · show (mapSet _ _ _).length ≤ _
      simp only [ModelCache.ensureSpace]
      rw [length_mapSet_of_not_mem _ hfresh1]
      omega
    · show (ModelCache.ensureSpace s (ModelCache.estimateModelSize model)).currentSize +
          ModelCache.estimateModelSize model ≤
        (ModelCache.ensureSpace s (ModelCache.estimateModelSize model)).maxSize
      simp only [ModelCache.ensureSpace]
      rw [E2]
      exact E4
    · show (0 : ℤ) ≤
        (ModelCache.ensureSpace s (ModelCache.estimateModelSize model)).maxSize
      simp only [ModelCache.ensureSpace]
      rw [E2]
      exact h.maxSizeNonneg
    · show 1 ≤
        (ModelCache.ensureSpace s (ModelCache.estimateModelSize model)).maxEntries
      simp only [ModelCache.ensureSpace]
      rw [E3]
      exact h.maxEntriesPos
    · show (ModelCache.ensureSpace s
          (ModelCache.estimateModelSize model)).maxSize = s.maxSize
      simp only [ModelCache.ensureSpace]
      exact E2
    · show (ModelCache.ensureSpace s
          (ModelCache.estimateModelSize model)).maxEntries = s.maxEntries
      simp only [ModelCache.ensureSpace]
      exact E3

theorem inv_delete (s : ModelCache.CacheState) (key : String)
    (h : ModelCache.CacheInv s) :
    ModelCache.CacheInv (ModelCache.delete s key).1 ∧
    (ModelCache.delete s key).1.maxSize = s.maxSize ∧
    (ModelCache.delete s key).1.maxEntries = s.maxEntries := by
  rcases he : mapLookup s.cache key with _ | e
  · have : (ModelCache.delete s key).1 = s := by
      unfold ModelCache.delete
      rw [he]
    rw [this]
    exact ⟨h, rfl, rfl⟩
  · have hesize : 0 ≤ e.size := h.sizesNonneg (key, e) (mapLookup_mem he)
    have hkmem : key ∈ mapKeys s.cache := by
      by_contra hn
      rw [← mapLookup_eq_none_iff] at hn
      rw [hn] at he
      exact Option.noConfusion he
    have hlen := length_mapDelete_of_lookup he
    have hres : (ModelCache.delete s key).1 =
        { s with
          cache := mapDelete s.cache key
          currentSize := s.currentSize - e.size
          accessOrder := s.accessOrder.erase key
          events := s.events ++ [ModelCache.CacheEvent.evictionEv key "manual"] } := by
      unfold ModelCache.delete
      rw [he]
    rw [hres]
    refine ⟨⟨?_, ?_, ?_, ?_, ?_, ?_, ?_, ?_, ?_⟩, rfl, rfl⟩
    · show s.currentSize - e.size = ModelCache.liveSize _
      simp only [ModelCache.liveSize]
      rw [sum_mapDelete (fun v => v.size) he]
      have h1 := h.sizeEq
      simp only [ModelCache.liveSize] at h1
      omega
    · show (mapKeys (mapDelete s.cache key)).Nodup
      rw [mapKeys_mapDelete]
      exact h.keysNodup.erase key
    · exact h.orderNodup.erase key
    · intro j
      show j ∈ s.accessOrder.erase key ↔ j ∈ mapKeys (mapDelete s.cache key)
      rw [mapKeys_mapDelete, h.orderNodup.mem_erase_iff, h.keysNodup.mem_erase_iff,
        h.orderIffKeys j]
    · intro kv hkv
      exact h.sizesNonneg kv (mem_mapDelete hkv)
    · show (mapDelete s.cache key).length ≤ s.maxEntries
      have h1 := h.entriesLe
      omega
    · show s.currentSize - e.size ≤ s.maxSize
      have h1 := h.sizeLe
      linarith
    · exact h.maxSizeNonneg
    · exact h.maxEntriesPos

theorem inv_events (s : ModelCache.CacheState) (h : ModelCache.CacheInv s)
    (ev : List ModelCache.CacheEvent) :
    ModelCache.CacheInv { s with events := ev } :=
  ⟨h.sizeEq, h.keysNodup, h.orderNodup, h.orderIffKeys, h.sizesNonneg,
    h.entriesLe, h.sizeLe, h.maxSizeNonneg, h.maxEntriesPos⟩

theorem inv_get (s : ModelCache.CacheState) (key : String)
    (outcome : Option Model) (quality : String) (now : ℤ)
    (h : ModelCache.CacheInv s) :
    ModelCache.CacheInv (ModelCache.get s key outcome quality now).1 ∧
    (ModelCache.get s key outcome quality now).1.maxSize = s.maxSize ∧
    (ModelCache.get s key outcome quality now).1.maxEntries = s.maxEntries := by
  rcases he : mapLookup s.cache key with _ | e
  · rcases outcome with _ | m
    · have hres : (ModelCache.get s key none quality now).1 =
          { s with totalRequests := s.totalRequests + 1
                   cacheMisses := s.cacheMisses + 1
                   events := s.events ++ [ModelCache.CacheEvent.errorEv key] } := by
        unfold ModelCache.get
        simp [he]
      rw [hres]
      exact ⟨inv_counters s h (s.totalRequests + 1) s.cacheHits
        (s.cacheMisses + 1) (s.events ++ [ModelCache.CacheEvent.errorEv key]),
        rfl, rfl⟩
    · have hInv1 : ModelCache.CacheInv
          { s with totalRequests := s.totalRequests + 1
                   cacheMisses := s.cacheMisses + 1 } :=
        inv_counters s h (s.totalRequests + 1) s.cacheHits
          (s.cacheMisses + 1) s.events
      obtain ⟨I1, I2, I3⟩ := inv_set
        { s with totalRequests := s.totalRequests + 1
                 cacheMisses := s.cacheMisses + 1 } key m quality now hInv1 he
      have hres : (ModelCache.get s key (some m) quality now).1 =
          { ModelCache.set
              { s with totalRequests := s.totalRequests + 1
                       cacheMisses := s.cacheMisses + 1 } key m quality now with
            events := (ModelCache.set
              { s with totalRequests := s.totalRequests + 1
                       cacheMisses := s.cacheMisses + 1 } key m quality
                now).events ++ [ModelCache.CacheEvent.loadEv key] } := by
        unfold ModelCache.get
        simp [he]
      rw [hres]
      exact ⟨inv_events _ I1 _, I2, I3⟩
  · have hk : key ∈ mapKeys s.cache := by
      by_contra hn
      rw [← mapLookup_eq_none_iff] at hn
      rw [hn] at he
      exact Option.noConfusion he
    have hInv1 : ModelCache.CacheInv
        { s with totalRequests := s.totalRequests + 1
                 cacheHits := s.cacheHits + 1 } :=
      inv_counters s h (s.totalRequests + 1) (s.cacheHits + 1)
        s.cacheMisses s.events
    obtain ⟨I1, I2, I3⟩ := inv_updateAccess
      { s with totalRequests := s.totalRequests + 1
               cacheHits := s.cacheHits + 1 } key now hInv1 hk
    have hres : (ModelCache.get s key outcome quality now).1 =
        ModelCache.updateAccess
          { s with totalRequests := s.totalRequests + 1
                   cacheHits := s.cacheHits + 1 } key now := by
      unfold ModelCache.get
      simp [he]
    rw [hres]
    exact ⟨I1, I2, I3⟩

theorem inv_foldl_delete (ks : List String) :
    ∀ s : ModelCache.CacheState, ModelCache.CacheInv s →
      ModelCache.CacheInv
        (ks.foldl (fun a k => (ModelCache.delete a k).1) s) ∧
      (ks.foldl (fun a k => (ModelCache.delete a k).1) s).maxSize = s.maxSize ∧
      (ks.foldl (fun a k => (ModelCache.delete a k).1) s).maxEntries =
        s.maxEntries := by
  induction ks with
  | nil => exact fun s h => ⟨h, rfl, rfl⟩
  | cons k ks ih =>
    intro s h
    obtain ⟨D1, D2, D3⟩ := inv_delete s k h
    obtain ⟨R1, R2, R3⟩ := ih (ModelCache.delete s k).1 D1
    refine ⟨?_, ?_, ?_⟩
    · rw [List.foldl_cons]
      exact R1
    · rw [List.foldl_cons, R2, D2]
    · rw [List.foldl_cons, R3, D3]

theorem inv_maintain (s : ModelCache.CacheState) (now : ℤ)
    (h : ModelCache.CacheInv s) :
    ModelCache.CacheInv (ModelCache.performMaintenance s now) ∧
    (ModelCache.performMaintenance s now).maxSize = s.maxSize ∧
    (ModelCache.performMaintenance s now).maxEntries = s.maxEntries := by
  have main : ∀ ks : List String,
      ModelCache.CacheInv
        (if 5 * (ks.foldl (fun a k => (ModelCache.delete a k).1) s).currentSize >
            4 * (ks.foldl (fun a k => (ModelCache.delete a k).1) s).maxSize
          then ModelCache.evictLeastUsed
            (ks.foldl (fun a k => (ModelCache.delete a k).1) s)
          else ks.foldl (fun a k => (ModelCache.delete a k).1) s) ∧
      (if 5 * (ks.foldl (fun a k => (ModelCache.delete a k).1) s).currentSize >
          4 * (ks.foldl (fun a k => (ModelCache.delete a k).1) s).maxSize
        then ModelCache.evictLeastUsed
          (ks.foldl (fun a k => (ModelCache.delete a k).1) s)
        else ks.foldl (fun a k =>
          (ModelCache.delete a k).1) s).maxSize = s.maxSize ∧
      (if 5 * (ks.foldl (fun a k => (ModelCache.delete a k).1) s).currentSize >
          4 * (ks.foldl (fun a k => (ModelCache.delete a k).1) s).maxSize
        then ModelCache.evictLeastUsed
          (ks.foldl (fun a k => (ModelCache.delete a k).1) s)
        else ks.foldl (fun a k =>
          (ModelCache.delete a k).1) s).maxEntries = s.maxEntries := by
    intro ks
    obtain ⟨F1, F2, F3⟩ := inv_foldl_delete ks s h
    by_cases hc : 5 * (ks.foldl (fun a k =>
        (ModelCache.delete a k).1) s).currentSize >
      4 * (ks.foldl (fun a k => (ModelCache.delete a k).1) s).maxSize
    · rw [if_pos hc]
      obtain ⟨E1, E2, E3, _, _⟩ := inv_evictLeastUsed _ F1
      exact ⟨E1, E2.trans F2, E3.trans F3⟩
    · rw [if_neg hc]
      exact ⟨F1, F2, F3⟩
  exact main _

theorem inv_applyOp (s : ModelCache.CacheState) (op : ModelCache.CacheOp)
    (h : ModelCache.CacheInv s) (hfresh : ModelCache.opFresh s op = true) :
    ModelCache.CacheInv (ModelCache.applyOp s op) ∧
    (ModelCache.applyOp s op).maxSize = s.maxSize ∧
    (ModelCache.applyOp s op).maxEntries = s.maxEntries := by
  cases op with
  | getOp k o q n => exact inv_get s k o q n h
  | setOp k m q n =>
    have hk : mapLookup s.cache k = none := by
      simp only [ModelCache.opFresh, Option.isNone_iff_eq_none] at hfresh
      exact hfresh
    exact inv_set s k m q n h hk
  | deleteOp k => exact inv_delete s k h
  | evictOp =>
    obtain ⟨E1, E2, E3, _, _⟩ := inv_evictLeastUsed s h
    exact ⟨E1, E2, E3⟩
  | clearOp => exact ⟨inv_clear s h, rfl, rfl⟩
  | maintainOp n => exact inv_maintain s n h

theorem inv_applyOps (ops : List ModelCache.CacheOp) :
    ∀ s : ModelCache.CacheState, ModelCache.CacheInv s →
      ModelCache.opsValid s ops = true →
      ModelCache.CacheInv (ModelCache.applyOps s ops) ∧
      (ModelCache.applyOps s ops).maxSize = s.maxSize ∧
      (ModelCache.applyOps s ops).maxEntries = s.maxEntries := by
  induction ops with
  | nil => exact fun s h _ => ⟨h, rfl, rfl⟩
  | cons op ops ih =>
    intro s h hv
    rw [show ModelCache.opsValid s (op :: ops) =
      (ModelCache.opFresh s op && ModelCache.opsValid (ModelCache.applyOp s op) ops)
      from rfl, Bool.and_eq_true] at hv
    obtain ⟨A1, A2, A3⟩ := inv_applyOp s op h hv.1
    obtain ⟨R1, R2, R3⟩ := ih (ModelCache.applyOp s op) A1 hv.2
    refine ⟨?_, ?_, ?_⟩
    · show ModelCache.CacheInv ((op :: ops).foldl ModelCache.applyOp s)
      rw [List.foldl_cons]
      exact R1
    · show ((op :: ops).foldl ModelCache.applyOp s).maxSize = s.maxSize
      rw [List.foldl_cons]
      rw [show (ops.foldl ModelCache.applyOp (ModelCache.applyOp s op)) =
        ModelCache.applyOps (ModelCache.applyOp s op) ops from rfl, R2, A2]
    · show ((op :: ops).foldl ModelCache.applyOp s).maxEntries = s.maxEntries
      rw [List.foldl_cons]
      rw [show (ops.foldl ModelCache.applyOp (ModelCache.applyOp s op)) =
        ModelCache.applyOps (ModelCache.applyOp s op) ops from rfl, R3, A3]

theorem inv_initCache (maxSize : ℤ) (maxEntries : ℕ) (hms : 0 ≤ maxSize)
    (hme : 1 ≤ maxEntries) :
    ModelCache.CacheInv (ModelCache.initCache maxSize maxEntries) := by
  refine ⟨?_, ?_, ?_, ?_, ?_, ?_, ?_, ?_, ?_⟩ <;>
    simp [ModelCache.initCache, ModelCache.liveSize, mapKeys] <;>
    first
      | exact hms
      | exact hme

/-- C2 amended: for every sane configuration (nonnegative size budget,
positive entry budget) and every sequence of cache operations —
completed `get`s, `delete`s, LRU evictions, `clear`s, maintenance
passes, and completed loads stored via `set` — in which each `set`
stores a key not currently cached (the discipline the sequential load
path guarantees, and which overlapping loads for one key violate), the
cache's tracked `currentSize` equals the sum of the live entries'
sizes, the entry count is at most the configured `maxEntries`, and
`currentSize` is at most the configured `maxSize`. -/
theorem cache_invariant_sequential (maxSize : ℤ) (maxEntries : ℕ)
    (ops : List ModelCache.CacheOp) (hms : 0 ≤ maxSize) (hme : 1 ≤ maxEntries)
    (hv : ModelCache.opsValid (ModelCache.initCache maxSize maxEntries) ops =
      true) :
    (ModelCache.applyOps (ModelCache.initCache maxSize maxEntries)
        ops).currentSize =
      ModelCache.liveSize
        (ModelCache.applyOps (ModelCache.initCache maxSize maxEntries) ops) ∧
    (ModelCache.applyOps (ModelCache.initCache maxSize maxEntries)
        ops).cache.length ≤ maxEntries ∧
    (ModelCache.applyOps (ModelCache.initCache maxSize maxEntries)
        ops).currentSize ≤ maxSize := by
  obtain ⟨I, hIms, hIme⟩ := inv_applyOps ops
    (ModelCache.initCache maxSize maxEntries)
    (inv_initCache maxSize maxEntries hms hme) hv
  refine ⟨I.sizeEq, ?_, ?_⟩
  · have h1 := I.entriesLe
    rw [hIme] at h1
    exact h1
  · have h1 := I.sizeLe
    rw [hIms] at h1
    exact h1

/-- Witness for C2 on a concrete run: budget 100 bytes / 2 entries,
exercising a completed load, a direct fresh store, a hit, a manual
delete, a maintenance pass, an LRU eviction and a clear. -/
theorem cache_invariant_sequential_witness :
    ModelCache.opsValid (ModelCache.initCache 100 2) wOps = true ∧
    ((ModelCache.applyOps (ModelCache.initCache 100 2) wOps).currentSize =
      ModelCache.liveSize
        (ModelCache.applyOps (ModelCache.initCache 100 2) wOps) ∧
    (ModelCache.applyOps (ModelCache.initCache 100 2) wOps).cache.length ≤ 2 ∧
    (ModelCache.applyOps (ModelCache.initCache 100 2) wOps).currentSize ≤ 100) :=
  ⟨by decide, cache_invariant_sequential 100 2 wOps (by decide) (by decide)
    (by decide)⟩

/-! ### Memory-cleanup lemmas -/

theorem insertByCount_perm (x : String × ModelCache.CacheEntry)
    (l : List (String × ModelCache.CacheEntry)) :
    (ModelCache.insertByCount x l).Perm (x :: l) := by
  induction l with
  | nil => simp [ModelCache.insertByCount]
  | cons y ys ih =>
    unfold ModelCache.insertByCount
    by_cases hc : x.2.accessCount < y.2.accessCount
    · rw [if_pos hc]
    · rw [if_neg hc]
      exact (ih.cons y).trans (List.Perm.swap x y ys)

theorem sortFold_perm (l : List (String × ModelCache.CacheEntry)) :
    ∀ acc, (l.foldl (fun acc x => ModelCache.insertByCount x acc) acc).Perm
      (l ++ acc) := by
  induction l with
  | nil => intro acc; simp
  | cons a l ih =>
    intro acc
    rw [List.foldl_cons]
    exact (ih _).trans
      ((List.Perm.append_left l (insertByCount_perm a acc)).trans
        List.perm_middle)

theorem sortByAccessCount_perm (l : List (String × ModelCache.CacheEntry)) :
    (ModelCache.sortByAccessCount l).Perm l := by
  have h := sortFold_perm l []
  rw [List.append_nil] at h
  exact h

theorem foldl_delete_pairs (kvs : List (String × ModelCache.CacheEntry)) :
    ∀ c : ModelCache.CacheState,
      (∀ kv ∈ kvs, kv.1 ∈ mapKeys c.cache) → (kvs.map Prod.fst).Nodup →
      (kvs.foldl (fun a kv => (ModelCache.delete a kv.1).1) c).cache.length +
        kvs.length = c.cache.length := by
  induction kvs with
  | nil => intro c _ _; simp
  | cons kv kvs ih =>
    intro c hpres hnodup
    have hk : kv.1 ∈ mapKeys c.cache := hpres kv (List.mem_cons_self kv kvs)
    obtain ⟨e, he⟩ := mapLookup_isSome_of_mem hk
    have hres : (ModelCache.delete c kv.1).1 =
        { c with
          cache := mapDelete c.cache kv.1
          currentSize := c.currentSize - e.size
          accessOrder := c.accessOrder.erase kv.1
          events := c.events ++
            [ModelCache.CacheEvent.evictionEv kv.1 "manual"] } := by
      unfold ModelCache.delete
      rw [he]
    have hlen := length_mapDelete_of_lookup he
    rw [List.map_cons, List.nodup_cons] at hnodup
    have hpres' : ∀ kv' ∈ kvs, kv'.1 ∈ mapKeys (ModelCache.delete c kv.1).1.cache := by
      intro kv' hkv'
      rw [hres]
      show kv'.1 ∈ mapKeys (mapDelete c.cache kv.1)
      rw [mapKeys_mapDelete]
      have hne : kv'.1 ≠ kv.1 := by
        intro hcontra
        exact hnodup.1 (hcontra ▸ List.mem_map_of_mem Prod.fst hkv')
      exact (List.mem_erase_of_ne hne).mpr (hpres kv' (List.mem_cons_of_mem kv hkv'))
    have hrec := ih (ModelCache.delete c kv.1).1 hpres' hnodup.2
    rw [List.foldl_cons]
    have hlen' : (ModelCache.delete c kv.1).1.cache.length + 1 = c.cache.length := by
      rw [hres]
      exact hlen
    have hfold : (kvs.foldl (fun a kv => (ModelCache.delete a kv.1).1)
        ((fun a kv => (ModelCache.delete a kv.1).1) c kv)) =
        kvs.foldl (fun a kv => (ModelCache.delete a kv.1).1)
          (ModelCache.delete c kv.1).1 := rfl
    rw [hfold]
    simp only [List.length_cons]
    omega

theorem getLeastUsedEntries_length (c : ModelCache.CacheState) (n : ℕ) :
    (ModelCache.getLeastUsedEntries c n).length = min n c.cache.length := by
  unfold ModelCache.getLeastUsedEntries
  rw [List.length_take, (sortByAccessCount_perm c.cache).length_eq]

/-- C6 amended: when memory pressure exceeds 80%, the cleanup step
removes `⌈0.25 × min(5, entryCount)⌉` entries — a quarter, rounded up,
of the *five least-used-by-access-count* entries reported by
`getStats().leastUsed` — rather than 25% of the whole cache chosen by
recency; every removed key comes from that least-used-five list. -/
theorem performMemoryCleanup_least_used (c : ModelCache.CacheState)
    (h : (mapKeys c.cache).Nodup) :
    (LODManager.performMemoryCleanup c).cache.length +
      (min 5 c.cache.length + 3) / 4 = c.cache.length ∧
    ∀ k ∈ LODManager.cleanupVictimKeys c,
      k ∈ (ModelCache.getLeastUsedEntries c 5).map Prod.fst := by
  have hlen5 := getLeastUsedEntries_length c 5
  have hperm := sortByAccessCount_perm c.cache
  have hkeysperm : ((ModelCache.sortByAccessCount c.cache).map Prod.fst).Perm
      (mapKeys c.cache) := hperm.map Prod.fst
  have hsortnodup : ((ModelCache.sortByAccessCount c.cache).map Prod.fst).Nodup :=
    (hkeysperm.nodup_iff).mpr h
  have hvict : ∀ t : ℕ,
      (((ModelCache.getLeastUsedEntries c 5).take t).map Prod.fst).Nodup ∧
      (∀ kv ∈ (ModelCache.getLeastUsedEntries c 5).take t,
        kv.1 ∈ mapKeys c.cache) := by
    intro t
    constructor
    · have hsub : ((ModelCache.getLeastUsedEntries c 5).take t).Sublist
          (ModelCache.sortByAccessCount c.cache) := by
        unfold ModelCache.getLeastUsedEntries
        exact (List.take_sublist _ _).trans (List.take_sublist _ _)
      exact hsortnodup.sublist (hsub.map Prod.fst)
    · intro kv hkv
      have hmem : kv ∈ ModelCache.sortByAccessCount c.cache := by
        unfold ModelCache.getLeastUsedEntries at hkv
        exact List.take_subset _ _ (List.take_subset _ _ hkv)
      exact List.mem_map_of_mem Prod.fst (hperm.subset hmem)
  obtain ⟨hnodup, hpres⟩ := hvict
    (((ModelCache.getLeastUsedEntries c 5).length + 3) / 4)
  have hmain := foldl_delete_pairs
    ((ModelCache.getLeastUsedEntries c 5).take
      (((ModelCache.getLeastUsedEntries c 5).length + 3) / 4)) c hpres hnodup
  have htake : ((ModelCache.getLeastUsedEntries c 5).take
      (((ModelCache.getLeastUsedEntries c 5).length + 3) / 4)).length =
      (min 5 c.cache.length + 3) / 4 := by
    rw [List.length_take, hlen5]
    omega
  constructor
  · have hcleanup : LODManager.performMemoryCleanup c =
        ((ModelCache.getLeastUsedEntries c 5).take
          (((ModelCache.getLeastUsedEntries c 5).length + 3) / 4)).foldl
          (fun a kv => (ModelCache.delete a kv.1).1) c := rfl
    rw [hcleanup]
    rw [htake] at hmain
    exact hmain
  · intro k hk
    unfold LODManager.cleanupVictimKeys at hk
    simp only [List.mem_map] at hk ⊢
    obtain ⟨kv, hkv, hkeq⟩ := hk
    exact ⟨kv, List.take_subset _ _ hkv, hkeq⟩

/-- Witness for C6 amended, on the twenty-entry cache `s20`: the cleanup
removes `(min 5 20 + 3) / 4 = 2` entries, both from the least-used-five. -/
theorem performMemoryCleanup_least_used_witness :
    (mapKeys s20.cache).Nodup ∧
    ((LODManager.performMemoryCleanup s20).cache.length +
      (min 5 s20.cache.length + 3) / 4 = s20.cache.length ∧
    ∀ k ∈ LODManager.cleanupVictimKeys s20,
      k ∈ (ModelCache.getLeastUsedEntries s20 5).map Prod.fst) :=
  ⟨by decide, performMemoryCleanup_least_used s20 (by decide)⟩
